import Mathlib

/-!
# Iterated 2-opt heuristic for the TSP

A shallow embedding of `TSPHeuristic` (`src/project/Ass2/TSPHeuristic.cpp`):
the greedy, Kruskal-like construction `greedyInitialization`, one pass of the
local search `twoOptLongEdgeFirst`, the length function `tourLength` and the
driver `solve`.

Costs live in an arbitrary linear order `α` with an addition and a zero, of which
nothing is assumed (the addition need not be associative, commutative or
monotone): `tourLength` is the running sum that the code computes from left to
right, in exact arithmetic as well as in the rounding arithmetic of `double`.
`Double` is the instance for the doubles that are non-negative integers, with the
rounded addition of IEEE 754; NaN, for which `<` is not a linear order, is left
out.  The three scenarios are stated in a linearly ordered commutative ring.

The two calls of `std::sort` are parameters of the model: `std::sort` promises a
sorted permutation of its input and nothing about the order of equivalent
elements, which is what `IsStdSort` says.  `stdSort` follows the implementation of
`std::sort` in the GNU C++ library, to trace the program where the order of
equivalent elements matters.  Vectors are lists read with `getD` and written with
`set`; the invariants below keep every index that is used in range.  Loops whose
termination depends on an invariant of the data (`find`, the reconstruction walk,
the loop of `solve`) take fuel and return `none` when it runs out; the accesses
`endpoints[0]`, `endpoints[1]` and `adj[curr][k]` return `none` when they are out
of range.
-/

namespace TSP

/-- The class `TSPInstance`: the number of nodes and the cost matrix,
`cost i j` standing for `cost[i][j]`. -/
structure TSPInstance (α : Type) where
  n : Nat
  cost : Nat → Nat → α

/-- The local struct `Edge` of `greedyInitialization`. -/
structure Edge (α : Type) where
  u : Nat
  v : Nat
  w : α

/-- The local struct `Cut` of `twoOptLongEdgeFirst`: `i` is the index of the
cut, `length` the length of the edge `(tour[i-1], tour[i])`. -/
structure Cut (α : Type) where
  i : Nat
  length : α

/-- The members `tour` and `obj_value` of a `TSPHeuristic` object
(`solving_time` is wall-clock time and is left out). -/
structure TSPHeuristic (α : Type) where
  tour : List Nat
  obj_value : α
  deriving DecidableEq

/-- The contract of `std::sort` with comparator `lt`: the result is a
permutation of the input in which no element is followed by a strictly
smaller one. -/
def IsStdSort {β : Type} (lt : β → β → Prop) (sort : List β → List β) : Prop :=
  ∀ l, (sort l).Perm l ∧ (sort l).Pairwise (fun a b => ¬ lt b a)

section Defs

variable {α : Type} [LinearOrder α] [Add α] [Zero α]

/-- The loop of `tourLength`, with the running `sum`. -/
def tourLengthFrom (inst : TSPInstance α) : α → List Nat → α
  | sum, a :: b :: rest => tourLengthFrom inst (sum + inst.cost a b) (b :: rest)
  | sum, _ => sum

/-- The method `tourLength`: sum of `cost[t[i]][t[i+1]]` over `i + 1 < t.size()`. -/
def tourLength (inst : TSPInstance α) (t : List Nat) : α :=
  tourLengthFrom inst 0 t

/-- The call `std::reverse(c.begin() + i, c.begin() + j + 1)` on a copy `c` of
`t`, for `i ≤ j` and `j + 1 ≤ t.size()`: the positions `i, …, j` are reversed. -/
def reverseSegment (t : List Nat) (i j : Nat) : List Nat :=
  t.take i ++ ((t.drop i).take (j + 1 - i)).reverse ++ t.drop (j + 1)

/-- The vector `cuts` before sorting: one cut for `i = 1, …, m - 2`, `m = n`. -/
def buildCuts (inst : TSPInstance α) (tour : List Nat) : List (Cut α) :=
  (List.range' 1 (inst.n - 2)).map fun i =>
    ⟨i, inst.cost (tour.getD (i - 1) 0) (tour.getD i 0)⟩

/-- The inner loop `for (j = i + 1; j < m; ++j)`: the first candidate strictly
shorter than `best`, if there is one. -/
def tryCut (inst : TSPInstance α) (tour : List Nat) (best : α) (i : Nat) :
    Option (List Nat) :=
  (List.range' (i + 1) (inst.n - (i + 1))).findSome? fun j =>
    let candidate := reverseSegment tour i j
    if tourLength inst candidate < best then some candidate else none

/-- The method `twoOptLongEdgeFirst`: the returned flag and the member `tour`
after the call. -/
def twoOptLongEdgeFirst (sortCuts : List (Cut α) → List (Cut α))
    (inst : TSPInstance α) (tour : List Nat) : Bool × List Nat :=
  let cuts := sortCuts (buildCuts inst tour)
  let best := tourLength inst tour
  match cuts.findSome? (fun c => tryCut inst tour best c.i) with
  | some candidate => (true, candidate)
  | none => (false, tour)

/-- The two nested loops that fill `edges`: all pairs `i < j < n` with their cost. -/
def allEdges (inst : TSPInstance α) : List (Edge α) :=
  (List.range inst.n).flatMap fun i =>
    (List.range' (i + 1) (inst.n - (i + 1))).map fun j => ⟨i, j, inst.cost i j⟩

/-- The lambda `find`: `while (parent[x] != x) x = parent[x] = parent[parent[x]]`.
Every test of the loop condition takes one unit of fuel; the result is the
vector `parent` after the path halving and the root that is returned. -/
def find : Nat → List Nat → Nat → Option (List Nat × Nat)
  | 0, _, _ => none
  | fuel + 1, parent, x =>
    if parent.getD x 0 = x then some (parent, x)
    else
      let g := parent.getD (parent.getD x 0) 0
      find fuel (parent.set x g) g

/-- The lambda `unite`: `a = find(a); b = find(b); if (a != b) parent[b] = a`. -/
def unite (fuel : Nat) (parent : List Nat) (a b : Nat) : Option (List Nat) :=
  match find fuel parent a with
  | none => none
  | some (p1, ra) =>
    match find fuel p1 b with
    | none => none
    | some (p2, rb) => if ra ≠ rb then some (p2.set rb ra) else some p2

/-- The working vectors of the main scan of `greedyInitialization`. -/
structure ScanState where
  degree : List Nat
  parent : List Nat
  selected : List (Nat × Nat)

/-- The main scan `for (const auto& e : edges)` of `greedyInitialization`.  The
two calls of `find` in the condition are made left to right; `selected.size()`
is compared with `n - 1`, which is `selected.length` against `n - 1` in `Nat` as
soon as `n ≥ 1` (for `n = 0` there is no edge and the body never runs). -/
def scan (fuel n : Nat) : ScanState → List (Edge α) → Option ScanState
  | s, [] => some s
  | s, e :: es =>
    if s.degree.getD e.u 0 = 2 ∨ s.degree.getD e.v 0 = 2 then scan fuel n s es
    else
      match find fuel s.parent e.u with
      | none => none
      | some (p1, ru) =>
        match find fuel p1 e.v with
        | none => none
        | some (p2, rv) =>
          if ru = rv ∧ s.selected.length < n - 1 then
            scan fuel n ⟨s.degree, p2, s.selected⟩ es
          else
            let selected := s.selected ++ [(e.u, e.v)]
            let d1 := s.degree.set e.u (s.degree.getD e.u 0 + 1)
            let d2 := d1.set e.v (d1.getD e.v 0 + 1)
            match unite fuel p2 e.u e.v with
            | none => none
            | some p3 =>
              if selected.length = n - 1 then some ⟨d2, p3, selected⟩
              else scan fuel n ⟨d2, p3, selected⟩ es

/-- The vector `endpoints`: the nodes of degree 1, in increasing order. -/
def endpoints (n : Nat) (degree : List Nat) : List Nat :=
  (List.range n).filter fun i => degree.getD i 0 = 1

/-- One round of the loop that fills `adj`: two `push_back`. -/
def addEdge (adj : List (List Nat)) (e : Nat × Nat) : List (List Nat) :=
  let adj1 := adj.set e.1 (adj.getD e.1 [] ++ [e.2])
  adj1.set e.2 (adj1.getD e.2 [] ++ [e.1])

/-- The adjacency lists `adj` built from `selected`. -/
def buildAdj (n : Nat) (selected : List (Nat × Nat)) : List (List Nat) :=
  selected.foldl addEdge (List.replicate n [])

/-- The loop `while (true)` that reconstructs the tour; `prev` is an `int`
that starts at `-1`.  The accesses `adj[curr][0]` and `adj[curr][1]` give
`none` when they are out of range. -/
def walk (adj : List (List Nat)) : Nat → List Nat → Int → Nat → Option (List Nat)
  | 0, _, _, _ => none
  | fuel + 1, tour, prev, curr =>
    match (adj.getD curr [])[0]? with
    | none => none
    | some a0 =>
      match (if Int.ofNat a0 ≠ prev then some a0 else (adj.getD curr [])[1]?) with
      | none => none
      | some next =>
        if next = tour.getD 0 0 then some tour
        else walk adj fuel (tour ++ [next]) (Int.ofNat curr) next

/-- The second half of `greedyInitialization`, from the search of the two
endpoints on: the closing edge, the adjacency lists and the reconstruction of
the tour, closed by `tour.push_back(tour[0])`.  The accesses `endpoints[0]` and
`endpoints[1]` give `none` when they are out of range. -/
def closeTour (n fuel : Nat) (s : ScanState) : Option (List Nat) :=
  match (endpoints n s.degree)[0]?, (endpoints n s.degree)[1]? with
  | some e0, some e1 =>
    match walk (buildAdj n (s.selected ++ [(e0, e1)])) fuel [0] (-1) 0 with
    | none => none
    | some tour => some (tour ++ [tour.getD 0 0])
  | _, _ => none

/-- The method `greedyInitialization`: the member `tour` it leaves, or `none`
when an access is out of range or the fuel of a loop runs out. -/
def greedyInitialization (sortEdges : List (Edge α) → List (Edge α))
    (inst : TSPInstance α) (fuel : Nat) : Option (List Nat) :=
  match scan fuel inst.n ⟨List.replicate inst.n 0, List.range inst.n, []⟩
      (sortEdges (allEdges inst)) with
  | none => none
  | some s => closeTour inst.n fuel s

/-- The loop `while (twoOptLongEdgeFirst()) {}` of `solve`; every call of
`twoOptLongEdgeFirst` takes one unit of fuel. -/
def refineLoop (sortCuts : List (Cut α) → List (Cut α)) (inst : TSPInstance α) :
    Nat → List Nat → Option (List Nat)
  | 0, _ => none
  | fuel + 1, tour =>
    match twoOptLongEdgeFirst sortCuts inst tour with
    | (true, tour') => refineLoop sortCuts inst fuel tour'
    | (false, tour') => some tour'

/-- The constructor: `obj_value(0.0)` and an empty `tour`. -/
def TSPHeuristic.init : TSPHeuristic α := ⟨[], 0⟩

/-- The method `solve`: construction, refinement to a fixpoint, then
`obj_value = tourLength(tour)`; the result is the object after the call. -/
def solve (sortEdges : List (Edge α) → List (Edge α))
    (sortCuts : List (Cut α) → List (Cut α)) (inst : TSPInstance α) (fuel : Nat) :
    Option (TSPHeuristic α) :=
  match greedyInitialization sortEdges inst fuel with
  | none => none
  | some tour0 =>
    match refineLoop sortCuts inst fuel tour0 with
    | none => none
    | some tour => some ⟨tour, tourLength inst tour⟩

/-- The method `getObjValue`. -/
def getObjValue (self : TSPHeuristic α) : α := self.obj_value

/-- The method `getTour`. -/
def getTour (self : TSPHeuristic α) : List Nat := self.tour

/-- A stable instance of `std::sort` on edges (insertion sort by weight). -/
def stableSortEdges : List (Edge α) → List (Edge α) :=
  List.insertionSort fun a b => a.w ≤ b.w

/-- A stable instance of `std::sort` on cuts (insertion sort by decreasing length). -/
def stableSortCuts : List (Cut α) → List (Cut α) :=
  List.insertionSort fun a b => b.length ≤ a.length

/-- The values of the second cut position `j` in the inner loop
`for (int j = i + 1; j < m; ++j)` of `twoOptLongEdgeFirst`, `m = n`. -/
def secondCutPositions (inst : TSPInstance α) (i : Nat) : List Nat :=
  List.range' (i + 1) (inst.n - (i + 1))

end Defs

section ExactDefs

variable {α : Type} [LinearOrderedCommRing α]

/-- The instance of scenario 1: the corners (0,0), (10,0), (10,10), (0,10) of a
square, with `d` for the length of a diagonal. -/
def squareInstance (d : α) : TSPInstance α :=
  ⟨4, fun i j => if i = j then 0 else if i + 2 = j ∨ j + 2 = i then d else 10⟩

/-- The instance of scenario 2: the points (0,0), (10,10), (10,0), (0,10), with
`d` for the distance of the pairs `{0,1}` and `{2,3}`. -/
def crossedInstance (d : α) : TSPInstance α :=
  ⟨4, fun i j => if i = j then 0 else if i + j = 1 ∨ i + j = 5 then d else 10⟩

end ExactDefs

/-! ## The arithmetic of `double`

`tourLength` adds values of type `double`, so that every sum is rounded.  The
definitions above make no assumption on the addition; here is the instance of
them that is used to follow the program on inputs where a sum rounds: the
doubles that are non-negative integers, with the addition of IEEE 754 (binary64,
rounding to nearest, ties to the even significand).  The overflow to infinity,
from `2 ^ 1024` on, is not modelled. -/

/-- The spacing of the doubles at the magnitude `m`: the least power of two `p`,
starting from the argument `p`, with `m < 2 ^ 53 * p`.  With `p = 1` at the start
it is 1 below `2 ^ 53`, 2 from `2 ^ 53` to `2 ^ 54`, 4 from `2 ^ 54` to `2 ^ 55`, and
so on. -/
def ulpFrom : Nat → Nat → Nat → Nat
  | 0, _, p => p
  | fuel + 1, m, p => if m < 2 ^ 53 * p then p else ulpFrom fuel m (2 * p)

/-- The double nearest to the natural number `m`: the multiple of the spacing
that is nearest to `m`, and of the two nearest ones, when `m` is halfway, the one
with the even significand. -/
def roundToDouble (m : Nat) : Nat :=
  let p := ulpFrom 971 m 1
  let q := m / p
  let r := m % p
  if 2 * r < p then q * p
  else if p < 2 * r then (q + 1) * p
  else if q % 2 = 0 then q * p else (q + 1) * p

/-- The values of the type `double` that are non-negative integers; `val` is the
value, which is a fixed point of `roundToDouble`. -/
structure Double where
  val : Nat

/-- The comparison of two doubles is the comparison of their values. -/
instance : LinearOrder Double :=
  LinearOrder.lift' Double.val fun a b h => by cases a; cases b; cases h; rfl

/-- The operator `+` of `double`: the exact sum, rounded to the nearest double. -/
instance : Add Double := ⟨fun a b => ⟨roundToDouble (a.val + b.val)⟩⟩

/-- The literal `0.0`. -/
instance : Zero Double := ⟨⟨0⟩⟩

/-- The cost matrix of `inst` with every cost read as a natural number.  The
addition of natural numbers is exact, so that `tourLength` on `exactCosts inst` is
the exact sum of the costs along a tour, where `tourLength` on `inst` is the sum
that the program computes. -/
def exactCosts (inst : TSPInstance Double) : TSPInstance Nat :=
  ⟨inst.n, fun i j => (inst.cost i j).val⟩

/-- A symmetric 4-node instance with large costs: `2 ^ 53` on `{1,2}` and `{1,3}`,
2 on `{0,3}` and `{2,3}`, 1 on `{0,1}` and `{0,2}`. -/
def roundingInstance : TSPInstance Double :=
  ⟨4, fun i j => if i = j then ⟨0⟩
    else if (i = 1 ∧ j ≠ 0) ∨ (j = 1 ∧ i ≠ 0) then ⟨2 ^ 53⟩
    else if i + j = 3 ∨ i + j = 5 then ⟨2⟩ else ⟨1⟩⟩

/-- A symmetric 4-node instance with large costs: `2 ^ 53` on `{1,3}` and `{2,3}`,
1 on every other pair. -/
def mirrorInstance : TSPInstance Double :=
  ⟨4, fun i j => if i = j then ⟨0⟩
    else if (i = 3 ∧ j ≠ 0) ∨ (j = 3 ∧ i ≠ 0) then ⟨2 ^ 53⟩ else ⟨1⟩⟩

/-- A symmetric 3-node instance with a large cost: `2 ^ 53` on `{1,2}`, 1 on `{0,1}`
and `{0,2}`. -/
def triangleInstance : TSPInstance Double :=
  ⟨3, fun i j => if i = j then ⟨0⟩ else if i + j = 3 then ⟨2 ^ 53⟩ else ⟨1⟩⟩

/-! ## The library sort

`std::sort` as the GNU C++ library implements it (libstdc++, `bits/stl_algo.h`):
quicksort with a median-of-three pivot on every range of more than 16 elements,
followed by one insertion sort of the whole range.  The functions below follow
that code one for one; an iterator is a position in the list that stands for the
vector.  A read outside the vector gives `none`.  When the depth limit
`2 * lg n` is used up the library falls back to heap sort, which is not modelled:
`introsortLoop` gives `none` there. -/

section StdSort

variable {β : Type}

/-- The function `std::__unguarded_linear_insert` for the value `val` taken from
the position `next + 1`. -/
def unguardedLinearInsert (comp : β → β → Bool) (val : β) : List β → Nat → Option (List β)
  | _, 0 => none
  | arr, next + 1 =>
    match arr[next]? with
    | none => none
    | some x =>
      if comp val x then unguardedLinearInsert comp val (arr.set (next + 1) x) next
      else some (arr.set (next + 1) val)

/-- The loop of `std::__insertion_sort` over the positions `i`: an element smaller
than the first one is moved to the front (`std::move_backward`), any other is
inserted by `std::__unguarded_linear_insert`. -/
def insertionSortLoop (comp : β → β → Bool) (first : Nat) :
    List Nat → List β → Option (List β)
  | [], arr => some arr
  | i :: is, arr =>
    match arr[i]?, arr[first]? with
    | some val, some x =>
      if comp val x then
        insertionSortLoop comp first is
          (arr.take first ++ val :: (arr.drop first).take (i - first) ++ arr.drop (i + 1))
      else
        match unguardedLinearInsert comp val arr i with
        | none => none
        | some arr1 => insertionSortLoop comp first is arr1
    | _, _ => none

/-- The function `std::__insertion_sort`. -/
def insertionSort (comp : β → β → Bool) (arr : List β) (first last : Nat) :
    Option (List β) :=
  if first = last then some arr
  else insertionSortLoop comp first (List.range' (first + 1) (last - (first + 1))) arr

end StdSort

section LibrarySort

variable {α : Type} [LinearOrder α]

end LibrarySort

/-- A valid closed tour of an `n`-node instance: length `n + 1`, the first `n`
elements are a permutation of `0, …, n - 1`, the last element equals the first. -/
def ValidTour (n : Nat) (t : List Nat) : Prop :=
  t.length = n + 1 ∧ (t.take n).Perm (List.range n) ∧ t.getLast? = t.head?

instance (n : Nat) (t : List Nat) : Decidable (ValidTour n t) := by
  unfold ValidTour; infer_instance

/-! ## Ghost definitions for the proof of `greedyInitialization` -/

/-- The neighbours that the edge list `sel` gives node `x`, in the order in
which the loop over `selected` pushes them on `adj[x]`. -/
def nbrs (sel : List (Nat × Nat)) (x : Nat) : List Nat :=
  sel.flatMap fun e => (if e.1 = x then [e.2] else []) ++ (if e.2 = x then [e.1] else [])

/-- The edges between consecutive nodes of a chain. -/
def pathEdges : List Nat → List (Nat × Nat)
  | a :: b :: rest => (a, b) :: pathEdges (b :: rest)
  | _ => []

/-- The neighbours of `x` as a multiset. -/
def nbM (sel : List (Nat × Nat)) (x : Nat) : Multiset Nat := (nbrs sel x : Multiset Nat)

/-- The union-find invariant of the vector `parent`, with two ghost functions:
`rt x` is the root of the tree of `x`, and `φ` strictly decreases along every
parent link that is not a loop. -/
structure UFInv (n : Nat) (parent : List Nat) (rt φ : Nat → Nat) : Prop where
  len : parent.length = n
  rt_lt : ∀ x, x < n → rt x < n
  parent_lt : ∀ x, x < n → parent.getD x 0 < n
  rt_parent : ∀ x, x < n → rt (parent.getD x 0) = rt x
  rt_root : ∀ x, x < n → parent.getD x 0 = x → rt x = x
  root_fix : ∀ x, x < n → parent.getD (rt x) 0 = rt x
  desc : ∀ x, x < n → parent.getD x 0 ≠ x → φ (parent.getD x 0) < φ x

/-- The ghost root function after `unite` has linked the root `rb` below `ra`. -/
def rtLink (rt : Nat → Nat) (ra rb : Nat) : Nat → Nat :=
  fun y => if rt y = rb then ra else rt y

/-- The ghost measure after `unite` has linked the root `rb` below `ra`. -/
def phiLink (rt φ : Nat → Nat) (ra rb : Nat) : Nat → Nat :=
  fun y => if rt y = rb then φ y + φ ra + 1 else φ y

/-- The invariant of the main scan.  The ghost list `cs` holds the chains (the
paths that the selected edges form, as node sequences); `rt` and `φ` are the
ghost functions of the union-find invariant. -/
structure ScanInv (n : Nat) (s : ScanState) (cs : List (List Nat)) (rt φ : Nat → Nat) :
    Prop where
  uf : UFInv n s.parent rt φ
  deg_len : s.degree.length = n
  deg : ∀ x, s.degree.getD x 0 = (nbrs s.selected x).length
  deg_le : ∀ x, s.degree.getD x 0 ≤ 2
  flat : cs.flatten.Perm (List.range n)
  ne : ∀ c ∈ cs, c ≠ []
  adjm : ∀ x, nbM s.selected x = nbM (cs.flatMap pathEdges) x
  classes : ∀ c ∈ cs, ∀ x ∈ c, ∀ y, y < n → (rt y = rt x ↔ y ∈ c)
  phi : ∀ c ∈ cs, ∀ x ∈ c, φ x < c.length
  count : s.selected.length + cs.length = n

/-- The pair `(a, b)` needs no edge any more: one of the two nodes has degree 2
or both are in the same component. -/
def Settled (s : ScanState) (rt : Nat → Nat) (a b : Nat) : Prop :=
  s.degree.getD a 0 = 2 ∨ s.degree.getD b 0 = 2 ∨ rt a = rt b

/-- The edge from the last node of `P` to the first node of `Q`, if both exist. -/
def link (P Q : List Nat) : List (Nat × Nat) :=
  match P.getLast?, Q.head? with
  | some a, some b => [(a, b)]
  | _, _ => []

/-- The edges of the cycle through the nodes of `r`, in this order. -/
def cycEdges (r : List Nat) : List (Nat × Nat) := pathEdges r ++ link r r

/-- The adjacency lists `adj` are those of the cycle through `r`: every node of
`r` has its two cycle neighbours, in some order. -/
def IsCycleAdj (adj : List (List Nat)) (r : List Nat) : Prop :=
  ∀ x ∈ r, ((adj.getD x [] : List Nat) : Multiset Nat) = nbM (cycEdges r) x

/-- The nodes `a` and `b` are joined by a path of edges of `sel`. -/
def Joined (sel : List (Nat × Nat)) : Nat → Nat → Prop :=
  Relation.ReflTransGen fun x y => (x, y) ∈ sel ∨ (y, x) ∈ sel

/-- The edge list `sel` has no cycle: no edge of the list joins two nodes that the
edges before it in the list already join (in particular it has no loop and no
edge twice). -/
def NoCycle (sel : List (Nat × Nat)) : Prop :=
  ∀ pre u v post, sel = pre ++ (u, v) :: post → ¬ Joined pre u v

/-! ## Lemmas on `twoOptLongEdgeFirst` -/

section TwoOpt

variable {α : Type} [LinearOrder α] [Add α] [Zero α]

omit [LinearOrder α] [Add α] [Zero α] in
theorem mem_buildCuts {inst : TSPInstance α} {tour : List Nat} {c : Cut α}
    (h : c ∈ buildCuts inst tour) : 1 ≤ c.i ∧ c.i + 2 ≤ inst.n := by
  unfold buildCuts at h
  rw [List.mem_map] at h
  obtain ⟨i, hi, rfl⟩ := h
  rw [List.mem_range'_1] at hi
  simp only
  omega

omit [LinearOrder α] [Add α] [Zero α] in
theorem buildCuts_mem {inst : TSPInstance α} {tour : List Nat} {i : Nat}
    (h1 : 1 ≤ i) (h2 : i + 2 ≤ inst.n) :
    (⟨i, inst.cost (tour.getD (i - 1) 0) (tour.getD i 0)⟩ : Cut α) ∈ buildCuts inst tour := by
  unfold buildCuts
  rw [List.mem_map]
  refine ⟨i, ?_, rfl⟩
  rw [List.mem_range'_1]
  omega

theorem tryCut_some {inst : TSPInstance α} {tour : List Nat} {best : α} {i : Nat}
    {cand : List Nat} (h : tryCut inst tour best i = some cand) :
    ∃ j, i < j ∧ j < inst.n ∧ cand = reverseSegment tour i j ∧
      tourLength inst cand < best := by
  unfold tryCut at h
  obtain ⟨j, hj, hj2⟩ := List.exists_of_findSome?_eq_some h
  rw [List.mem_range'_1] at hj
  simp only at hj2
  split at hj2
  · next hlt =>
    cases hj2
    exact ⟨j, by omega, by omega, rfl, hlt⟩
  · cases hj2

theorem tryCut_none {inst : TSPInstance α} {tour : List Nat} {best : α} {i : Nat}
    (h : tryCut inst tour best i = none) {j : Nat} (hij : i < j) (hj : j < inst.n) :
    ¬ tourLength inst (reverseSegment tour i j) < best := by
  unfold tryCut at h
  rw [List.findSome?_eq_none_iff] at h
  have := h j (by rw [List.mem_range'_1]; omega)
  simp only at this
  intro hlt
  rw [if_pos hlt] at this
  cases this

/-- What a pass that returns `true` leaves: a candidate of some cut that is
strictly shorter than the tour. -/
theorem twoOpt_true {sortCuts : List (Cut α) → List (Cut α)} {inst : TSPInstance α}
    {tour : List Nat} (h : (twoOptLongEdgeFirst sortCuts inst tour).1 = true) :
    ∃ c ∈ sortCuts (buildCuts inst tour), ∃ j, c.i < j ∧ j < inst.n ∧
      (twoOptLongEdgeFirst sortCuts inst tour).2 = reverseSegment tour c.i j ∧
      tourLength inst (reverseSegment tour c.i j) < tourLength inst tour := by
  unfold twoOptLongEdgeFirst at h ⊢
  simp only at h ⊢
  split at h
  · next cand hc =>
    obtain ⟨c, hcm, hc2⟩ := List.exists_of_findSome?_eq_some hc
    obtain ⟨j, h1, h2, h3, h4⟩ := tryCut_some hc2
    refine ⟨c, hcm, j, h1, h2, h3, ?_⟩
    rw [← h3]; exact h4
  · cases h

/-- What a pass that returns `false` means: the tour is unchanged and no
candidate of any cut is strictly shorter. -/
theorem twoOpt_false {sortCuts : List (Cut α) → List (Cut α)} {inst : TSPInstance α}
    {tour : List Nat} (h : (twoOptLongEdgeFirst sortCuts inst tour).1 = false) :
    (twoOptLongEdgeFirst sortCuts inst tour).2 = tour ∧
    ∀ c ∈ sortCuts (buildCuts inst tour), ∀ j, c.i < j → j < inst.n →
      ¬ tourLength inst (reverseSegment tour c.i j) < tourLength inst tour := by
  unfold twoOptLongEdgeFirst at h ⊢
  simp only at h ⊢
  split at h
  · cases h
  · next hc =>
    refine ⟨rfl, fun c hcm j h1 h2 => ?_⟩
    rw [List.findSome?_eq_none_iff] at hc
    exact tryCut_none (hc c hcm) h1 h2

/-- A pass returns `false` with the tour unchanged as soon as no candidate is
strictly shorter. -/
theorem twoOpt_eq_of_no_improvement {sortCuts : List (Cut α) → List (Cut α)}
    {inst : TSPInstance α} {tour : List Nat}
    (h : ∀ c ∈ sortCuts (buildCuts inst tour), ∀ j, c.i < j → j < inst.n →
      ¬ tourLength inst (reverseSegment tour c.i j) < tourLength inst tour) :
    twoOptLongEdgeFirst sortCuts inst tour = (false, tour) := by
  have hnone : (sortCuts (buildCuts inst tour)).findSome?
      (fun c => tryCut inst tour (tourLength inst tour) c.i) = none := by
    rw [List.findSome?_eq_none_iff]
    intro c hc
    cases hcut : tryCut inst tour (tourLength inst tour) c.i with
    | none => rfl
    | some cand =>
      obtain ⟨j, h1, h2, h3, h4⟩ := tryCut_some hcut
      exact absurd (h3 ▸ h4) (h c hc j h1 h2)
  unfold twoOptLongEdgeFirst
  simp only [hnone]

theorem reverseSegment_split (t : List Nat) (i j : Nat) (hij : i ≤ j) :
    t = t.take i ++ (t.drop i).take (j + 1 - i) ++ t.drop (j + 1) := by
  have h1 : t.drop (j + 1) = (t.drop i).drop (j + 1 - i) := by
    rw [List.drop_drop]; congr 1; omega
  rw [h1, List.append_assoc, List.take_append_drop, List.take_append_drop]

theorem validTour_reverseSegment {n : Nat} {t : List Nat} (ht : ValidTour n t)
    {i j : Nat} (hi : 1 ≤ i) (hij : i ≤ j) (hj : j < n) :
    ValidTour n (reverseSegment t i j) ∧
    (reverseSegment t i j).head? = t.head? ∧
    (reverseSegment t i j).getLast? = t.getLast? := by
  obtain ⟨hlen, hperm, hclosed⟩ := ht
  have hsplit := reverseSegment_split t i j hij
  set A := t.take i with hA
  set B := (t.drop i).take (j + 1 - i) with hB
  set C := t.drop (j + 1) with hC
  have hAlen : A.length = i := by rw [hA, List.length_take]; omega
  have hBlen : B.length = j + 1 - i := by
    rw [hB, List.length_take, List.length_drop]; omega
  have hClen : C.length = n - j := by rw [hC, List.length_drop]; omega
  have hAne : A ≠ [] := by
    intro h; rw [h] at hAlen; simp at hAlen; omega
  have hCne : C ≠ [] := by
    intro h; rw [h] at hClen; simp at hClen; omega
  have hrev : reverseSegment t i j = A ++ B.reverse ++ C := rfl
  have hhead : (reverseSegment t i j).head? = t.head? := by
    rw [hrev]
    conv_rhs => rw [hsplit]
    cases hA' : A with
    | nil => exact absurd hA' hAne
    | cons a as => simp
  have hlast : (reverseSegment t i j).getLast? = t.getLast? := by
    rw [hrev]
    conv_rhs => rw [hsplit]
    rw [List.getLast?_append_of_ne_nil _ hCne, List.getLast?_append_of_ne_nil _ hCne]
  refine ⟨⟨?_, ?_, ?_⟩, hhead, hlast⟩
  · rw [hrev]
    simp only [List.length_append, List.length_reverse, hAlen, hBlen, hClen]
    omega
  · have h1 : (A ++ B.reverse ++ C).take n = A ++ B.reverse ++ C.take (n - (j + 1)) := by
      rw [List.take_append_eq_append_take]
      have : (A ++ B.reverse).length = j + 1 := by
        simp only [List.length_append, List.length_reverse, hAlen, hBlen]; omega
      rw [this, List.take_of_length_le (by rw [this]; omega)]
    have h2 : t.take n = A ++ B ++ C.take (n - (j + 1)) := by
      conv_lhs => rw [hsplit]
      rw [List.take_append_eq_append_take]
      have : (A ++ B).length = j + 1 := by
        simp only [List.length_append, hAlen, hBlen]; omega
      rw [this, List.take_of_length_le (by rw [this]; omega)]
    rw [hrev, h1]
    rw [h2] at hperm
    refine List.Perm.trans ?_ hperm
    exact List.Perm.append_right _ (List.Perm.append_left _ (List.reverse_perm B))
  · rw [hhead, hlast]; exact hclosed

theorem perm_pair {β : Type} {l : List β} {a b : β} (h : l.Perm [a, b]) :
    l = [a, b] ∨ l = [b, a] := by
  have hlen := h.length_eq
  match l, hlen with
  | [x, y], _ =>
    have hx : x ∈ [a, b] := h.subset (List.mem_cons_self _ _)
    simp only [List.mem_cons, List.mem_singleton, List.not_mem_nil, or_false] at hx
    rcases hx with rfl | rfl
    · have := List.perm_singleton.mp (List.Perm.cons_inv h)
      left; rw [this]
    · have h2 : (x :: [y]).Perm (x :: [a]) := h.trans (List.Perm.swap _ _ _)
      have := List.perm_singleton.mp (List.Perm.cons_inv h2)
      right; rw [this]

omit [Add α] [Zero α] in
theorem stableSortCuts_isStdSort :
    IsStdSort (fun a b : Cut α => a.length > b.length) stableSortCuts := by
  intro l
  refine ⟨List.perm_insertionSort _ l, ?_⟩
  have hs : (List.insertionSort (fun a b : Cut α => b.length ≤ a.length) l).Sorted
      (fun a b : Cut α => b.length ≤ a.length) :=
    @List.sorted_insertionSort _ (fun a b : Cut α => b.length ≤ a.length) _
      ⟨fun a b => le_total b.length a.length⟩
      ⟨fun a b c hab hbc => le_trans hbc hab⟩ l
  exact List.Pairwise.imp (fun {a b} hab => not_lt.mpr hab) hs

omit [Add α] [Zero α] in
theorem stableSortEdges_isStdSort :
    IsStdSort (fun a b : Edge α => a.w < b.w) stableSortEdges := by
  intro l
  refine ⟨List.perm_insertionSort _ l, ?_⟩
  have hs : (List.insertionSort (fun a b : Edge α => a.w ≤ b.w) l).Sorted
      (fun a b : Edge α => a.w ≤ b.w) :=
    @List.sorted_insertionSort _ (fun a b : Edge α => a.w ≤ b.w) _
      ⟨fun a b => le_total a.w b.w⟩
      ⟨fun a b c hab hbc => le_trans hab hbc⟩ l
  exact List.Pairwise.imp (fun {a b} hab => not_lt.mpr hab) hs

omit [LinearOrder α] [Zero α] in
/-- The loop of `tourLength` adds the costs of the consecutive positions
`k = 0, 1, …` one after the other to the running sum, from left to right. -/
theorem tourLengthFrom_eq_foldl (inst : TSPInstance α) (t : List Nat) (s : α) :
    tourLengthFrom inst s t =
      (List.range (t.length - 1)).foldl
        (fun sum k => sum + inst.cost (t.getD k 0) (t.getD (k + 1) 0)) s := by
  induction t generalizing s with
  | nil => simp [tourLengthFrom]
  | cons a t ih =>
    cases t with
    | nil => simp [tourLengthFrom]
    | cons b rest =>
      rw [tourLengthFrom, ih]
      simp only [List.length_cons, Nat.add_sub_cancel]
      rw [List.range_succ_eq_map (rest.length), List.foldl_cons, List.foldl_map]
      simp only [List.getD_cons_succ, List.getD_cons_zero]

omit [LinearOrder α] in
theorem tourLength_eq_foldl (inst : TSPInstance α) (t : List Nat) :
    tourLength inst t =
      (List.range (t.length - 1)).foldl
        (fun sum k => sum + inst.cost (t.getD k 0) (t.getD (k + 1) 0)) 0 :=
  tourLengthFrom_eq_foldl inst t 0

end TwoOpt

/-! ## Exact arithmetic: the computed length is the sum of the costs -/

section ExactSum

variable {α : Type} [LinearOrderedCommRing α]

theorem tourLengthFrom_eq_sum (inst : TSPInstance α) (t : List Nat) (s : α) :
    tourLengthFrom inst s t =
      s + ∑ k ∈ Finset.range (t.length - 1), inst.cost (t.getD k 0) (t.getD (k + 1) 0) := by
  induction t generalizing s with
  | nil => simp [tourLengthFrom]
  | cons a t ih =>
    cases t with
    | nil => simp [tourLengthFrom]
    | cons b rest =>
      rw [tourLengthFrom, ih]
      simp only [List.length_cons, Nat.add_sub_cancel]
      rw [Finset.sum_range_succ' _ (rest.length)]
      simp only [List.getD_cons_succ, List.getD_cons_zero]
      rw [add_assoc, add_comm (inst.cost a b)]

theorem tourLength_eq_sum (inst : TSPInstance α) (t : List Nat) :
    tourLength inst t =
      ∑ k ∈ Finset.range (t.length - 1), inst.cost (t.getD k 0) (t.getD (k + 1) 0) := by
  rw [tourLength, tourLengthFrom_eq_sum, zero_add]

end ExactSum

/-! ## Fuel: more fuel never changes a result -/

section Fuel

variable {α : Type}

theorem find_mono {fuel : Nat} {parent : List Nat} {x : Nat} {r : List Nat × Nat}
    (h : find fuel parent x = some r) (k : Nat) : find (fuel + k) parent x = some r := by
  induction fuel generalizing parent x with
  | zero => simp [find] at h
  | succ f ih =>
    rw [Nat.add_right_comm]
    unfold find at h ⊢
    split
    · next hx => rw [if_pos hx] at h; exact h
    · next hx => rw [if_neg hx] at h; exact ih h

theorem unite_mono {fuel : Nat} {parent : List Nat} {a b : Nat} {r : List Nat}
    (h : unite fuel parent a b = some r) (k : Nat) :
    unite (fuel + k) parent a b = some r := by
  unfold unite at h ⊢
  cases h1 : find fuel parent a with
  | none => rw [h1] at h; cases h
  | some r1 =>
    obtain ⟨p1, ra⟩ := r1
    rw [h1] at h
    rw [find_mono h1 k]
    simp only at h ⊢
    cases h2 : find fuel p1 b with
    | none => rw [h2] at h; cases h
    | some r2 =>
      obtain ⟨p2, rb⟩ := r2
      rw [h2] at h
      rw [find_mono h2 k]
      exact h

theorem scan_mono {fuel n : Nat} {s : ScanState} {es : List (Edge α)} {r : ScanState}
    (h : scan fuel n s es = some r) (k : Nat) : scan (fuel + k) n s es = some r := by
  induction es generalizing s with
  | nil => simpa [scan] using h
  | cons e es ih =>
    unfold scan at h ⊢
    split
    · next hd => rw [if_pos hd] at h; exact ih h
    · next hd =>
      rw [if_neg hd] at h
      cases h1 : find fuel s.parent e.u with
      | none => rw [h1] at h; cases h
      | some r1 =>
        obtain ⟨p1, ru⟩ := r1
        rw [h1] at h
        rw [find_mono h1 k]
        simp only at h ⊢
        cases h2 : find fuel p1 e.v with
        | none => rw [h2] at h; cases h
        | some r2 =>
          obtain ⟨p2, rv⟩ := r2
          rw [h2] at h
          rw [find_mono h2 k]
          simp only at h ⊢
          split
          · next hc => rw [if_pos hc] at h; exact ih h
          · next hc =>
            rw [if_neg hc] at h
            cases h3 : unite fuel p2 e.u e.v with
            | none => rw [h3] at h; cases h
            | some p3 =>
              rw [h3] at h
              rw [unite_mono h3 k]
              simp only at h ⊢
              split
              · next hl => rw [if_pos hl] at h; exact h
              · next hl => rw [if_neg hl] at h; exact ih h

theorem walk_mono {adj : List (List Nat)} {fuel : Nat} {tour : List Nat} {prev : Int}
    {curr : Nat} {r : List Nat} (h : walk adj fuel tour prev curr = some r) (k : Nat) :
    walk adj (fuel + k) tour prev curr = some r := by
  induction fuel generalizing tour prev curr with
  | zero => simp [walk] at h
  | succ f ih =>
    rw [Nat.add_right_comm]
    unfold walk at h ⊢
    cases h0 : (adj.getD curr [])[0]? with
    | none => rw [h0] at h; cases h
    | some a0 =>
      rw [h0] at h
      simp only at h ⊢
      cases h1 : (if Int.ofNat a0 ≠ prev then some a0 else (adj.getD curr [])[1]?) with
      | none => rw [h1] at h; cases h
      | some next =>
        rw [h1] at h
        simp only at h ⊢
        split
        · next hc => rw [if_pos hc] at h; exact h
        · next hc => rw [if_neg hc] at h; exact ih h

theorem scan_congr {β γ : Type} (fuel n : Nat) (s : ScanState) (es : List (Edge β))
    (es' : List (Edge γ))
    (h : es.map (fun e => (e.u, e.v)) = es'.map (fun e => (e.u, e.v))) :
    scan fuel n s es = scan fuel n s es' := by
  induction es generalizing es' s with
  | nil =>
    cases es' with
    | nil => simp [scan]
    | cons e' es' => simp at h
  | cons e es ih =>
    cases es' with
    | nil => simp at h
    | cons e' es' =>
      simp only [List.map_cons, List.cons.injEq, Prod.mk.injEq] at h
      obtain ⟨⟨hu, hv⟩, ht⟩ := h
      unfold scan
      rw [← hu, ← hv]
      simp only [ih _ _ ht]

theorem greedy_congr {β γ : Type} (sortE : List (Edge β) → List (Edge β))
    (sortE' : List (Edge γ) → List (Edge γ)) (inst : TSPInstance β) (inst' : TSPInstance γ)
    (hn : inst.n = inst'.n)
    (h : (sortE (allEdges inst)).map (fun e => (e.u, e.v)) =
      (sortE' (allEdges inst')).map (fun e => (e.u, e.v))) (fuel : Nat) :
    greedyInitialization sortE inst fuel = greedyInitialization sortE' inst' fuel := by
  unfold greedyInitialization
  rw [hn, scan_congr fuel inst'.n _ _ _ h]

theorem closeTour_mono {n fuel : Nat} {s : ScanState} {t : List Nat}
    (h : closeTour n fuel s = some t) (k : Nat) : closeTour n (fuel + k) s = some t := by
  unfold closeTour at h
  split at h
  · next e0 e1 h0 h1 =>
    unfold closeTour
    rw [h0, h1]
    simp only
    cases hw : walk (buildAdj n (s.selected ++ [(e0, e1)])) fuel [0] (-1) 0 with
    | none => rw [hw] at h; cases h
    | some tour =>
      rw [hw] at h
      rw [walk_mono hw k]
      exact h
  · cases h

theorem greedy_mono {β : Type} {sortE : List (Edge β) → List (Edge β)} {inst : TSPInstance β}
    {fuel : Nat} {t : List Nat} (h : greedyInitialization sortE inst fuel = some t) (k : Nat) :
    greedyInitialization sortE inst (fuel + k) = some t := by
  unfold greedyInitialization at h ⊢
  cases hs : scan fuel inst.n ⟨List.replicate inst.n 0, List.range inst.n, []⟩
      (sortE (allEdges inst)) with
  | none => rw [hs] at h; cases h
  | some s =>
    rw [hs] at h
    rw [scan_mono hs k]
    exact closeTour_mono h k

end Fuel

/-! ## The three scenarios -/

section Scenarios

variable {α : Type} [LinearOrderedCommRing α]

theorem sqrt200_bounds {d : α} (hd0 : 0 ≤ d) (hd : d * d = 200) : 14 < d ∧ 2 * d < 29 := by
  constructor
  · by_contra h
    have h' : d ≤ 14 := not_lt.mp h
    nlinarith
  · by_contra h
    have h' : 29 ≤ 2 * d := not_lt.mp h
    nlinarith

theorem buildCuts_crossed (d : α) :
    buildCuts (crossedInstance d) [0, 1, 2, 3, 0] = [⟨1, d⟩, ⟨2, 10⟩] := by
  simp [buildCuts, crossedInstance, List.range']

omit [LinearOrderedCommRing α] in
theorem allEdges_two (cost : Nat → Nat → α) :
    allEdges (⟨2, cost⟩ : TSPInstance α) = [⟨0, 1, cost 0 1⟩] := by
  simp [allEdges, List.range, List.range.loop, List.range', List.flatMap]

theorem allEdges_square (d : α) :
    allEdges (squareInstance d) =
      [⟨0, 1, 10⟩, ⟨0, 2, d⟩, ⟨0, 3, 10⟩, ⟨1, 2, 10⟩, ⟨1, 3, d⟩, ⟨2, 3, 10⟩] := by
  simp [allEdges, squareInstance, List.range, List.range.loop, List.range', List.flatMap]

set_option maxRecDepth 100000 in
/-- Every order of the six edges of the square in which no diagonal comes
before a side gives the perimeter, in one direction or the other. -/
theorem square_all_orders :
    ∀ ps ∈ ([(0, 1), (0, 2), (0, 3), (1, 2), (1, 3), (2, 3)] : List (Nat × Nat)).permutations',
      ps.Pairwise (fun p q => ¬ (p.1 + 2 = p.2 ∧ ¬ q.1 + 2 = q.2)) →
      greedyInitialization (fun _ => ps.map fun p => (⟨p.1, p.2, 0⟩ : Edge ℤ))
        (⟨4, fun _ _ => 0⟩ : TSPInstance ℤ) 4 = some [0, 1, 2, 3, 0] ∨
      greedyInitialization (fun _ => ps.map fun p => (⟨p.1, p.2, 0⟩ : Edge ℤ))
        (⟨4, fun _ _ => 0⟩ : TSPInstance ℤ) 4 = some [0, 3, 2, 1, 0] := by
  decide

theorem greedy_square (d : α) (hd : 10 < d)
    (sortEdges : List (Edge α) → List (Edge α))
    (hE : IsStdSort (fun a b : Edge α => a.w < b.w) sortEdges) (fuel : Nat) (hfuel : 4 ≤ fuel) :
    greedyInitialization sortEdges (squareInstance d) fuel = some [0, 1, 2, 3, 0] ∨
    greedyInitialization sortEdges (squareInstance d) fuel = some [0, 3, 2, 1, 0] := by
  obtain ⟨hperm, hsorted⟩ := hE (allEdges (squareInstance d))
  rw [allEdges_square] at hperm hsorted
  set es := sortEdges [⟨0, 1, 10⟩, ⟨0, 2, d⟩, ⟨0, 3, 10⟩, ⟨1, 2, 10⟩, ⟨1, 3, d⟩, ⟨2, 3, 10⟩]
    with hes
  have hps : (es.map fun e => (e.u, e.v)).Perm
      [(0, 1), (0, 2), (0, 3), (1, 2), (1, 3), (2, 3)] := by
    have := hperm.map (fun e : Edge α => (e.u, e.v))
    simpa using this
  have hmem : ∀ e ∈ es, (e.u + 2 = e.v → e.w = d) ∧ (¬ e.u + 2 = e.v → e.w = 10) := by
    intro e he
    have := hperm.mem_iff.mp he
    simp only [List.mem_cons, List.mem_singleton, List.not_mem_nil, or_false] at this
    rcases this with rfl | rfl | rfl | rfl | rfl | rfl <;> simp
  have hpw : (es.map fun e => (e.u, e.v)).Pairwise
      (fun p q => ¬ (p.1 + 2 = p.2 ∧ ¬ q.1 + 2 = q.2)) := by
    rw [List.pairwise_map]
    refine List.Pairwise.imp_of_mem ?_ hsorted
    intro a b ha hb hab
    rintro ⟨h1, h2⟩
    apply hab
    rw [(hmem a ha).1 h1, (hmem b hb).2 h2]
    exact hd
  have hkey := square_all_orders _ (List.mem_permutations'.mpr hps) hpw
  have hcongr : ∀ f, greedyInitialization sortEdges (squareInstance d) f =
      greedyInitialization
        (fun _ => (es.map fun e => (e.u, e.v)).map fun p => (⟨p.1, p.2, 0⟩ : Edge ℤ))
        (⟨4, fun _ _ => 0⟩ : TSPInstance ℤ) f := by
    intro f
    apply greedy_congr
    · rfl
    · rw [allEdges_square, ← hes]
      simp [List.map_map, Function.comp_def]
  obtain ⟨k, rfl⟩ : ∃ k, fuel = 4 + k := ⟨fuel - 4, by omega⟩
  rw [hcongr]
  rcases hkey with h | h
  · left; exact greedy_mono h k
  · right; exact greedy_mono h k

theorem twoOpt_square (d : α) (hd : 10 < d) (sortCuts : List (Cut α) → List (Cut α))
    (hC : IsStdSort (fun a b : Cut α => a.length > b.length) sortCuts) (t : List Nat)
    (ht : t = [0, 1, 2, 3, 0] ∨ t = [0, 3, 2, 1, 0]) :
    tourLength (squareInstance d) t = 40 ∧
    twoOptLongEdgeFirst sortCuts (squareInstance d) t = (false, t) := by
  have hl : tourLength (squareInstance d) t = 40 := by
    rcases ht with rfl | rfl <;>
    · simp [tourLength, tourLengthFrom, squareInstance]
      norm_num
  refine ⟨hl, ?_⟩
  apply twoOpt_eq_of_no_improvement
  intro c hc j hcj hj
  have hc' := mem_buildCuts ((hC _).1.mem_iff.mp hc)
  have hn : (squareInstance d).n = 4 := rfl
  rw [hn] at hc' hj
  rw [hl]
  have hcases : (c.i = 1 ∧ j = 2) ∨ (c.i = 1 ∧ j = 3) ∨ (c.i = 2 ∧ j = 3) := by omega
  rcases ht with rfl | rfl <;> rcases hcases with ⟨h1, rfl⟩ | ⟨h1, rfl⟩ | ⟨h1, rfl⟩ <;>
  · rw [h1]
    simp [reverseSegment, tourLength, tourLengthFrom, squareInstance]
    try linarith

end Scenarios

/-! ## The main scan of `greedyInitialization` keeps a set of disjoint paths -/

section Lists

theorem getD_set {β : Type} (l : List β) (i j : Nat) (v d : β) :
    (l.set i v).getD j d = if j = i ∧ i < l.length then v else l.getD j d := by
  rw [List.getD_eq_getElem?_getD, List.getD_eq_getElem?_getD, List.getElem?_set]
  by_cases hij : i = j
  · subst hij
    by_cases hl : i < l.length
    · simp [hl]
    · simp [hl, List.getElem?_eq_none (Nat.le_of_not_lt hl)]
  · have : ¬ j = i := fun h => hij h.symm
    simp [hij, this]

theorem getD_set_of_lt {β : Type} (l : List β) (i j : Nat) (v d : β) (hi : i < l.length) :
    (l.set i v).getD j d = if j = i then v else l.getD j d := by
  rw [getD_set]; simp [hi]

@[simp] theorem nbrs_nil (x : Nat) : nbrs [] x = [] := rfl

theorem nbrs_cons (e : Nat × Nat) (sel : List (Nat × Nat)) (x : Nat) :
    nbrs (e :: sel) x =
      (if e.1 = x then [e.2] else []) ++ (if e.2 = x then [e.1] else []) ++ nbrs sel x := by
  simp [nbrs, List.flatMap_cons]

theorem nbrs_append (l1 l2 : List (Nat × Nat)) (x : Nat) :
    nbrs (l1 ++ l2) x = nbrs l1 x ++ nbrs l2 x := by
  simp [nbrs, List.flatMap_append]

@[simp] theorem nbM_nil (x : Nat) : nbM [] x = 0 := rfl

theorem nbM_append (l1 l2 : List (Nat × Nat)) (x : Nat) :
    nbM (l1 ++ l2) x = nbM l1 x + nbM l2 x := by
  simp [nbM, nbrs_append]

theorem nbM_cons (e : Nat × Nat) (l : List (Nat × Nat)) (x : Nat) :
    nbM (e :: l) x = nbM [e] x + nbM l x := by
  rw [← nbM_append]; rfl

theorem nbM_single_swap (a b x : Nat) : nbM [(a, b)] x = nbM [(b, a)] x := by
  simp only [nbM, nbrs, List.flatMap_cons, List.flatMap_nil, List.append_nil]
  by_cases ha : a = x <;> by_cases hb : b = x <;> simp [ha, hb]

theorem nbM_perm {l1 l2 : List (Nat × Nat)} (h : l1.Perm l2) (x : Nat) :
    nbM l1 x = nbM l2 x := by
  unfold nbM nbrs
  exact Multiset.coe_eq_coe.mpr (h.flatMap_right _)

theorem card_nbM (l : List (Nat × Nat)) (x : Nat) :
    Multiset.card (nbM l x) = (nbrs l x).length := rfl

end Lists

section Chains

@[simp] theorem pathEdges_nil : pathEdges [] = [] := rfl

@[simp] theorem pathEdges_single (a : Nat) : pathEdges [a] = [] := rfl

@[simp] theorem pathEdges_cons_cons (a b : Nat) (rest : List Nat) :
    pathEdges (a :: b :: rest) = (a, b) :: pathEdges (b :: rest) := rfl

theorem pathEdges_append_cons (P : List Nat) (a b : Nat) (Q : List Nat) :
    pathEdges (P ++ a :: b :: Q) = pathEdges (P ++ [a]) ++ (a, b) :: pathEdges (b :: Q) := by
  induction P with
  | nil => simp
  | cons p P ih =>
    cases P with
    | nil => simp
    | cons q P => 
      simp only [List.cons_append, pathEdges_cons_cons] at ih ⊢
      rw [ih]

theorem nbrs_pathEdges_of_not_mem {c : List Nat} {x : Nat} (h : x ∉ c) :
    nbrs (pathEdges c) x = [] := by
  induction c with
  | nil => rfl
  | cons a c ih =>
    cases c with
    | nil => rfl
    | cons b c =>
      simp only [List.mem_cons, not_or] at h
      rw [pathEdges_cons_cons, nbrs_cons]
      have h1 : ¬ a = x := fun e => h.1 e.symm
      have h2 : ¬ b = x := fun e => h.2.1 e.symm
      simp only [h1, h2, if_false, List.nil_append]
      exact ih (by simp only [List.mem_cons, not_or]; exact h.2)

theorem nbM_pathEdges_of_not_mem {c : List Nat} {x : Nat} (h : x ∉ c) :
    nbM (pathEdges c) x = 0 := by
  unfold nbM; rw [nbrs_pathEdges_of_not_mem h]; rfl

theorem nbM_pathEdges_reverse (c : List Nat) (x : Nat) :
    nbM (pathEdges c.reverse) x = nbM (pathEdges c) x := by
  induction c with
  | nil => rfl
  | cons a c ih =>
    cases c with
    | nil => rfl
    | cons b c =>
      have h1 : (a :: b :: c).reverse = c.reverse ++ b :: a :: [] := by simp
      have h2 : (b :: c).reverse = c.reverse ++ [b] := by simp
      rw [h1, pathEdges_append_cons, ← h2, nbM_append, ih, pathEdges_cons_cons,
        nbM_cons (a, b), pathEdges_single, nbM_single_swap b a, add_comm]

/-- A node with fewer than two neighbours in a chain is its first or its last node. -/
theorem endpoint_of_degree_lt_two {c : List Nat} {x : Nat} (hx : x ∈ c)
    (hdeg : (nbrs (pathEdges c) x).length < 2) :
    c.head? = some x ∨ c.getLast? = some x := by
  obtain ⟨l1, l2, rfl⟩ := List.append_of_mem hx
  rcases List.eq_nil_or_concat l1 with rfl | ⟨l1', y, rfl⟩
  · left; rfl
  · cases l2 with
    | nil => right; simp
    | cons z l2 =>
      exfalso
      have : nbrs (pathEdges (l1' ++ [y] ++ x :: z :: l2)) x =
          nbrs (pathEdges (l1' ++ [y])) x ++
            ((if y = x then [x] else []) ++ [y]) ++
            (([z] ++ if z = x then [x] else []) ++ nbrs (pathEdges (z :: l2)) x) := by
        rw [List.append_assoc, List.singleton_append, pathEdges_append_cons,
          nbrs_append, nbrs_cons, pathEdges_cons_cons, nbrs_cons]
        simp
      rw [List.concat_eq_append, this] at hdeg
      simp only [List.length_append, List.length_singleton, List.length_cons] at hdeg
      omega

theorem nbrs_pathEdges_head {x y : Nat} {rest : List Nat} (h : (x :: y :: rest).Nodup) :
    nbrs (pathEdges (x :: y :: rest)) x = [y] := by
  rw [pathEdges_cons_cons, nbrs_cons]
  have hxy : ¬ y = x := by
    intro e; subst e
    simp at h
  rw [nbrs_pathEdges_of_not_mem (List.nodup_cons.mp h).1]
  simp [hxy]

theorem nbM_pathEdges_last {x y : Nat} {rest : List Nat} (h : (rest ++ [y, x]).Nodup) :
    nbM (pathEdges (rest ++ [y, x])) x = {y} := by
  have := nbM_pathEdges_reverse (rest ++ [y, x]) x
  rw [← this]
  have hr : (rest ++ [y, x]).reverse = x :: y :: rest.reverse := by simp
  rw [hr]
  unfold nbM
  rw [nbrs_pathEdges_head (by rw [← hr]; exact List.nodup_reverse.mpr h)]
  rfl

end Chains

section UnionFind

theorem UFInv.rt_rt {n : Nat} {parent : List Nat} {rt φ : Nat → Nat}
    (h : UFInv n parent rt φ) {x : Nat} (hx : x < n) : rt (rt x) = rt x :=
  h.rt_root _ (h.rt_lt x hx) (h.root_fix x hx)

/-- With more fuel than `φ x`, `find` returns the root of `x` and keeps the
invariant, with the same ghost functions. -/
theorem find_spec {n : Nat} {rt φ : Nat → Nat} (fuel : Nat) :
    ∀ (parent : List Nat) (x : Nat), UFInv n parent rt φ → x < n → φ x < fuel →
      ∃ parent', find fuel parent x = some (parent', rt x) ∧ UFInv n parent' rt φ := by
  induction fuel with
  | zero => intro parent x _ _ h; omega
  | succ f ih =>
    intro parent x hinv hx hφ
    unfold find
    by_cases hp : parent.getD x 0 = x
    · rw [if_pos hp, hinv.rt_root x hx hp]
      exact ⟨parent, rfl, hinv⟩
    · rw [if_neg hp]
      simp only
      set p := parent.getD x 0 with hpdef
      set g := parent.getD p 0 with hgdef
      have hpn : p < n := hinv.parent_lt x hx
      have hgn : g < n := hinv.parent_lt p hpn
      have hφp : φ p < φ x := hinv.desc x hx hp
      have hφg : φ g ≤ φ p := by
        by_cases hpp : parent.getD p 0 = p
        · rw [hgdef, hpp]
        · exact Nat.le_of_lt (hinv.desc p hpn hpp)
      have hgx : g ≠ x := by
        intro e; rw [e] at hφg; omega
      have hrg : rt g = rt x := by
        rw [hgdef, hinv.rt_parent p hpn, hpdef, hinv.rt_parent x hx]
      have hxl : x < parent.length := by rw [hinv.len]; exact hx
      have hget : ∀ y, (parent.set x g).getD y 0 = if y = x then g else parent.getD y 0 :=
        fun y => getD_set_of_lt parent x y g 0 hxl
      have hinv' : UFInv n (parent.set x g) rt φ := by
        refine ⟨by rw [List.length_set]; exact hinv.len, hinv.rt_lt, ?_, ?_, ?_, ?_, ?_⟩
        · intro y hy
          rw [hget]
          split
          · exact hgn
          · exact hinv.parent_lt y hy
        · intro y hy
          rw [hget]
          split
          · next e => rw [e]; exact hrg
          · exact hinv.rt_parent y hy
        · intro y hy
          rw [hget]
          split
          · next e => intro e2; exact absurd (e2.trans e) hgx
          · exact hinv.rt_root y hy
        · intro y hy
          rw [hget]
          split
          · next e =>
            exfalso
            have := hinv.root_fix y hy
            rw [e] at this
            exact hp this
          · exact hinv.root_fix y hy
        · intro y hy
          rw [hget]
          split
          · next e => intro _; rw [e]; omega
          · exact hinv.desc y hy
      obtain ⟨parent', h1, h2⟩ := ih (parent.set x g) g hinv' hgn (by omega)
      exact ⟨parent', by rw [h1, hrg], h2⟩

theorem unite_spec {n : Nat} {rt φ : Nat → Nat} {fuel : Nat} {parent : List Nat} {a b : Nat}
    (hinv : UFInv n parent rt φ) (ha : a < n) (hb : b < n) (hφa : φ a < fuel)
    (hφb : φ b < fuel) (hab : rt a ≠ rt b) :
    ∃ parent', unite fuel parent a b = some parent' ∧
      UFInv n parent' (rtLink rt (rt a) (rt b)) (phiLink rt φ (rt a) (rt b)) := by
  obtain ⟨p1, h1, hinv1⟩ := find_spec fuel parent a hinv ha hφa
  obtain ⟨p2, h2, hinv2⟩ := find_spec fuel p1 b hinv1 hb hφb
  unfold unite
  rw [h1]; simp only
  rw [h2]; simp only
  rw [if_pos hab]
  refine ⟨_, rfl, ?_⟩
  set ra := rt a with hra
  set rb := rt b with hrb
  have hran : ra < n := hinv2.rt_lt a ha
  have hrbn : rb < n := hinv2.rt_lt b hb
  have hrra : rt ra = ra := hinv2.rt_rt ha
  have hrrb : rt rb = rb := hinv2.rt_rt hb
  have hl : rb < p2.length := by rw [hinv2.len]; exact hrbn
  have hget : ∀ y, (p2.set rb ra).getD y 0 = if y = rb then ra else p2.getD y 0 :=
    fun y => getD_set_of_lt p2 rb y ra 0 hl
  refine ⟨by rw [List.length_set]; exact hinv2.len, ?_, ?_, ?_, ?_, ?_, ?_⟩
  · intro y hy
    unfold rtLink
    split
    · exact hran
    · exact hinv2.rt_lt y hy
  · intro y hy
    rw [hget]
    split
    · exact hran
    · exact hinv2.parent_lt y hy
  · intro y hy
    rw [hget]
    unfold rtLink
    by_cases e : y = rb
    · rw [if_pos e, e, hrra, hrrb, if_neg hab, if_pos rfl]
    · rw [if_neg e, hinv2.rt_parent y hy]
  · intro y hy
    rw [hget]
    unfold rtLink
    by_cases e : y = rb
    · rw [if_pos e, e]
      intro e2; exact absurd e2 hab
    · rw [if_neg e]
      intro hfix
      have := hinv2.rt_root y hy hfix
      rw [this, if_neg e]
  · intro y hy
    rw [hget]
    unfold rtLink
    by_cases e : rt y = rb
    · rw [if_pos e, if_neg hab]
      have := hinv2.root_fix a ha
      exact this
    · rw [if_neg e, if_neg e]
      exact hinv2.root_fix y hy
  · intro y hy
    rw [hget]
    unfold phiLink
    by_cases e : y = rb
    · rw [if_pos e, e]
      intro _
      rw [hrra, hrrb, if_neg hab, if_pos rfl]
      omega
    · rw [if_neg e]
      intro hne
      rw [hinv2.rt_parent y hy]
      have := hinv2.desc y hy hne
      split <;> omega

end UnionFind

section Invariant

theorem ScanInv.perm {n : Nat} {s : ScanState} {cs cs' : List (List Nat)} {rt φ : Nat → Nat}
    (h : ScanInv n s cs rt φ) (hp : cs.Perm cs') : ScanInv n s cs' rt φ where
  uf := h.uf
  deg_len := h.deg_len
  deg := h.deg
  deg_le := h.deg_le
  flat := (hp.symm.flatten).trans h.flat
  ne := fun c hc => h.ne c (hp.mem_iff.mpr hc)
  adjm := fun x => (h.adjm x).trans (nbM_perm (hp.flatMap_right _) x)
  classes := fun c hc => h.classes c (hp.mem_iff.mpr hc)
  phi := fun c hc => h.phi c (hp.mem_iff.mpr hc)
  count := by rw [← hp.length_eq]; exact h.count

theorem ScanInv.mem_lt {n : Nat} {s : ScanState} {cs : List (List Nat)} {rt φ : Nat → Nat}
    (h : ScanInv n s cs rt φ) {c : List Nat} (hc : c ∈ cs) {x : Nat} (hx : x ∈ c) : x < n := by
  have : x ∈ cs.flatten := List.mem_flatten.mpr ⟨c, hc, hx⟩
  exact List.mem_range.mp (h.flat.mem_iff.mp this)

theorem ScanInv.exists_chain {n : Nat} {s : ScanState} {cs : List (List Nat)}
    {rt φ : Nat → Nat} (h : ScanInv n s cs rt φ) {x : Nat} (hx : x < n) :
    ∃ c ∈ cs, x ∈ c := by
  have : x ∈ cs.flatten := h.flat.mem_iff.mpr (List.mem_range.mpr hx)
  obtain ⟨c, hc, hxc⟩ := List.mem_flatten.mp this
  exact ⟨c, hc, hxc⟩

theorem ScanInv.chain_length_le {n : Nat} {s : ScanState} {cs : List (List Nat)}
    {rt φ : Nat → Nat} (h : ScanInv n s cs rt φ) {c : List Nat} (hc : c ∈ cs) :
    c.length ≤ n := by
  have h1 : c.Sublist cs.flatten := List.sublist_flatten_of_mem hc
  have h2 := h1.length_le
  rw [h.flat.length_eq, List.length_range] at h2
  exact h2

theorem ScanInv.phi_lt {n : Nat} {s : ScanState} {cs : List (List Nat)}
    {rt φ : Nat → Nat} (h : ScanInv n s cs rt φ) {x : Nat} (hx : x < n) : φ x < n := by
  obtain ⟨c, hc, hxc⟩ := h.exists_chain hx
  exact Nat.lt_of_lt_of_le (h.phi c hc x hxc) (h.chain_length_le hc)

/-- The degree of `x` is at least its number of neighbours inside any one chain. -/
theorem ScanInv.chain_degree_le {n : Nat} {s : ScanState} {c : List Nat}
    {rest : List (List Nat)} {rt φ : Nat → Nat} (h : ScanInv n s (c :: rest) rt φ) (x : Nat) :
    (nbrs (pathEdges c) x).length ≤ s.degree.getD x 0 := by
  rw [h.deg, ← card_nbM, ← card_nbM, h.adjm, List.flatMap_cons, nbM_append, Multiset.card_add]
  exact Nat.le_add_right _ _

theorem orient_last {c : List Nat} {x : Nat} (hx : x ∈ c)
    (hdeg : (nbrs (pathEdges c) x).length < 2) :
    ∃ c0, (c0 ++ [x]).Perm c ∧ ∀ y, nbM (pathEdges (c0 ++ [x])) y = nbM (pathEdges c) y := by
  rcases endpoint_of_degree_lt_two hx hdeg with h | h
  · cases c with
    | nil => cases h
    | cons a c1 =>
      simp only [List.head?_cons, Option.some.injEq] at h
      subst h
      refine ⟨c1.reverse, ?_, fun y => ?_⟩
      · rw [← List.reverse_cons]; exact List.reverse_perm _
      · rw [← List.reverse_cons]; exact nbM_pathEdges_reverse _ y
  · rcases List.eq_nil_or_concat c with rfl | ⟨c0, y, rfl⟩
    · cases h
    · rw [List.concat_eq_append] at h ⊢
      rw [List.getLast?_append_of_ne_nil _ (List.cons_ne_nil y []), List.getLast?_singleton,
        Option.some.injEq] at h
      subst h
      exact ⟨c0, List.Perm.refl _, fun _ => rfl⟩

theorem orient_first {c : List Nat} {x : Nat} (hx : x ∈ c)
    (hdeg : (nbrs (pathEdges c) x).length < 2) :
    ∃ c0, (x :: c0).Perm c ∧ ∀ y, nbM (pathEdges (x :: c0)) y = nbM (pathEdges c) y := by
  obtain ⟨c0, hp, hy⟩ := orient_last hx hdeg
  refine ⟨c0.reverse, ?_, fun y => ?_⟩
  · have : x :: c0.reverse = (c0 ++ [x]).reverse := by simp
    rw [this]; exact (List.reverse_perm _).trans hp
  · have : x :: c0.reverse = (c0 ++ [x]).reverse := by simp
    rw [this, nbM_pathEdges_reverse]; exact hy y

end Invariant

section Accept

theorem degree_after_accept {n : Nat} {d : List Nat} (hlen : d.length = n) {u v : Nat}
    (hu : u < n) (hv : v < n) (huv : u ≠ v) (x : Nat) :
    ((d.set u (d.getD u 0 + 1)).set v ((d.set u (d.getD u 0 + 1)).getD v 0 + 1)).getD x 0 =
      d.getD x 0 + (if u = x then 1 else 0) + (if v = x then 1 else 0) := by
  have hul : u < d.length := by omega
  have hvl : v < (d.set u (d.getD u 0 + 1)).length := by rw [List.length_set]; omega
  rw [getD_set_of_lt _ _ _ _ _ hvl, getD_set_of_lt _ _ _ _ _ hul, getD_set_of_lt _ _ _ _ _ hul]
  by_cases h1 : x = v
  · subst h1
    have : ¬ x = u := fun e => huv e.symm
    simp [this, huv]
  · by_cases h2 : x = u
    · subst h2
      simp [h1, huv, Ne.symm huv]
    · have h1' : ¬ v = x := fun e => h1 e.symm
      have h2' : ¬ u = x := fun e => h2 e.symm
      simp [h1, h2, h1', h2']

theorem length_nbrs_snoc (sel : List (Nat × Nat)) (u v x : Nat) :
    (nbrs (sel ++ [(u, v)]) x).length =
      (nbrs sel x).length + (if u = x then 1 else 0) + (if v = x then 1 else 0) := by
  rw [nbrs_append, nbrs_cons, nbrs_nil]
  by_cases h1 : u = x <;> by_cases h2 : v = x <;> simp [h1, h2]

/-- Accepting an edge between the ends of two different chains keeps the
invariant: the two chains become one. -/
theorem ScanInv.accept {n : Nat} {s : ScanState} {A B : List Nat} {rest : List (List Nat)}
    {rt φ : Nat → Nat} (h : ScanInv n s (A :: B :: rest) rt φ) {u v : Nat}
    (hu : u ∈ A) (hv : v ∈ B) (hdu : s.degree.getD u 0 ≠ 2) (hdv : s.degree.getD v 0 ≠ 2)
    {p3 : List Nat}
    (hp3 : UFInv n p3 (rtLink rt (rt u) (rt v)) (phiLink rt φ (rt u) (rt v))) :
    ∃ C, ScanInv n
      ⟨(s.degree.set u (s.degree.getD u 0 + 1)).set v
          ((s.degree.set u (s.degree.getD u 0 + 1)).getD v 0 + 1),
        p3, s.selected ++ [(u, v)]⟩
      (C :: rest) (rtLink rt (rt u) (rt v)) (phiLink rt φ (rt u) (rt v)) := by
  have hA : A ∈ A :: B :: rest := List.mem_cons_self _ _
  have hB : B ∈ A :: B :: rest := List.mem_cons_of_mem _ (List.mem_cons_self _ _)
  have hun : u < n := h.mem_lt hA hu
  have hvn : v < n := h.mem_lt hB hv
  have hnd : (A ++ (B ++ rest.flatten)).Nodup := by
    have := h.flat.nodup_iff.mpr (List.nodup_range n)
    simpa using this
  obtain ⟨hndA, hndBr, hdisjA⟩ := List.nodup_append.mp hnd
  obtain ⟨hndB, hndr, hdisjB⟩ := List.nodup_append.mp hndBr
  have hAB : ∀ x, x ∈ A → x ∉ B := fun x hx hxb =>
    hdisjA hx (List.mem_append_left _ hxb)
  have hAr : ∀ x, x ∈ A → ∀ c ∈ rest, x ∉ c := fun x hx c hc hxc =>
    hdisjA hx (List.mem_append_right _ (List.mem_flatten.mpr ⟨c, hc, hxc⟩))
  have hBr : ∀ x, x ∈ B → ∀ c ∈ rest, x ∉ c := fun x hx c hc hxc =>
    hdisjB hx (List.mem_flatten.mpr ⟨c, hc, hxc⟩)
  have huv : u ≠ v := fun e => hAB u hu (e ▸ hv)
  have hrtA : ∀ y, y < n → (rt y = rt u ↔ y ∈ A) := h.classes A hA u hu
  have hrtB : ∀ y, y < n → (rt y = rt v ↔ y ∈ B) := h.classes B hB v hv
  have hab : rt u ≠ rt v := fun e => hAB v ((hrtA v hvn).mp e.symm) hv
  have hdu' : (nbrs (pathEdges A) u).length < 2 := by
    have h1 := h.chain_degree_le u
    have h2 := h.deg_le u
    omega
  have hdv' : (nbrs (pathEdges B) v).length < 2 := by
    have h1 := (h.perm (List.Perm.swap B A rest)).chain_degree_le v
    have h2 := h.deg_le v
    omega
  obtain ⟨A0, hpA, hnA⟩ := orient_last hu hdu'
  obtain ⟨B0, hpB, hnB⟩ := orient_first hv hdv'
  have hmemC : ∀ y, y ∈ A0 ++ u :: v :: B0 ↔ y ∈ A ∨ y ∈ B := by
    intro y
    rw [← hpA.mem_iff, ← hpB.mem_iff]
    simp only [List.mem_append, List.mem_cons, List.mem_singleton, List.not_mem_nil, or_false]
    tauto
  have hlenC : (A0 ++ u :: v :: B0).length = A.length + B.length := by
    rw [← hpA.length_eq, ← hpB.length_eq]
    simp only [List.length_append, List.length_cons, List.length_nil]
    omega
  refine ⟨A0 ++ u :: v :: B0, ?_⟩
  refine ⟨hp3, ?_, ?_, ?_, ?_, ?_, ?_, ?_, ?_, ?_⟩
  · simp only [List.length_set]; exact h.deg_len
  · intro x
    simp only
    rw [degree_after_accept h.deg_len hun hvn huv, length_nbrs_snoc, h.deg]
  · intro x
    simp only
    rw [degree_after_accept h.deg_len hun hvn huv]
    have hx := h.deg_le x
    have hu2 := h.deg_le u
    have hv2 := h.deg_le v
    by_cases h1 : u = x <;> by_cases h2 : v = x
    · exact absurd (h1.trans h2.symm) huv
    · subst h1; rw [if_pos rfl, if_neg h2]; omega
    · subst h2; rw [if_neg h1, if_pos rfl]; omega
    · rw [if_neg h1, if_neg h2]; exact hx
  · refine List.Perm.trans ?_ h.flat
    simp only [List.flatten_cons]
    rw [← List.append_assoc]
    refine List.Perm.append_right _ ?_
    have : A0 ++ u :: v :: B0 = (A0 ++ [u]) ++ (v :: B0) := by simp
    rw [this]
    exact List.Perm.append hpA hpB
  · intro c hc
    rcases List.mem_cons.mp hc with rfl | hc
    · simp
    · exact h.ne c (List.mem_cons_of_mem _ (List.mem_cons_of_mem _ hc))
  · intro x
    have e1 : nbM (s.selected ++ [(u, v)]) x = nbM s.selected x + nbM [(u, v)] x :=
      nbM_append _ _ _
    have e2 : nbM (((A0 ++ u :: v :: B0) :: rest).flatMap pathEdges) x =
        nbM (pathEdges (A0 ++ [u])) x + (nbM [(u, v)] x + nbM (pathEdges (v :: B0)) x) +
          nbM (rest.flatMap pathEdges) x := by
      rw [List.flatMap_cons, nbM_append, pathEdges_append_cons, nbM_append, nbM_cons]
    have e3 : nbM ((A :: B :: rest).flatMap pathEdges) x =
        nbM (pathEdges A) x + (nbM (pathEdges B) x + nbM (rest.flatMap pathEdges) x) := by
      rw [List.flatMap_cons, List.flatMap_cons, nbM_append, nbM_append]
    show nbM (s.selected ++ [(u, v)]) x = _
    rw [e1, e2, h.adjm, e3, hnA, hnB]
    abel
  · intro c hc x hx y hy
    rcases List.mem_cons.mp hc with rfl | hc
    · have hxn : x < n := by
        rcases (hmemC x).mp hx with hx | hx
        · exact h.mem_lt hA hx
        · exact h.mem_lt hB hx
      have hx' : rtLink rt (rt u) (rt v) x = rt u := by
        unfold rtLink
        rcases (hmemC x).mp hx with hx | hx
        · rw [(hrtA x hxn).mpr hx, if_neg hab]
        · rw [(hrtB x hxn).mpr hx, if_pos rfl]
      rw [hx', hmemC, ← hrtA y hy, ← hrtB y hy]
      unfold rtLink
      by_cases e : rt y = rt v
      · simp [e]
      · simp [e]
    · have hcs : c ∈ A :: B :: rest := List.mem_cons_of_mem _ (List.mem_cons_of_mem _ hc)
      have hxn : x < n := h.mem_lt hcs hx
      have hxu : rt x ≠ rt u := fun e => hAr x ((hrtA x hxn).mp e) c hc hx
      have hxv : rt x ≠ rt v := fun e => hBr x ((hrtB x hxn).mp e) c hc hx
      rw [← h.classes c hcs x hx y hy]
      unfold rtLink
      rw [if_neg hxv]
      by_cases e : rt y = rt v
      · rw [if_pos e]
        constructor
        · intro e2; exact absurd e2.symm hxu
        · intro e2; exact absurd (e2.symm.trans e) hxv
      · rw [if_neg e]
  · intro c hc x hx
    rcases List.mem_cons.mp hc with rfl | hc
    · rw [hlenC]
      unfold phiLink
      rcases (hmemC x).mp hx with hx | hx
      · have hxn : x < n := h.mem_lt hA hx
        rw [(hrtA x hxn).mpr hx, if_neg hab]
        have := h.phi A hA x hx
        omega
      · have hxn : x < n := h.mem_lt hB hx
        rw [(hrtB x hxn).mpr hx, if_pos rfl]
        have h1 := h.phi B hB x hx
        have hra : rt u ∈ A := (hrtA (rt u) (h.uf.rt_lt u hun)).mp (h.uf.rt_rt hun)
        have h2 := h.phi A hA (rt u) hra
        omega
    · have hcs : c ∈ A :: B :: rest := List.mem_cons_of_mem _ (List.mem_cons_of_mem _ hc)
      have hxn : x < n := h.mem_lt hcs hx
      have hxv : rt x ≠ rt v := fun e => hBr x ((hrtB x hxn).mp e) c hc hx
      unfold phiLink
      rw [if_neg hxv]
      exact h.phi c hcs x hx
  · have := h.count
    simp only [List.length_append, List.length_cons, List.length_nil] at this ⊢
    omega

end Accept

section Scan

theorem getD_range {n x : Nat} (hx : x < n) : (List.range n).getD x 0 = x := by
  rw [List.getD_eq_getElem?_getD, List.getElem?_range hx]; rfl

theorem getD_replicate_zero (n x : Nat) : (List.replicate n 0).getD x 0 = 0 := by
  rw [List.getD_eq_getElem?_getD]
  by_cases hx : x < n
  · rw [List.getElem?_replicate_of_lt hx]; rfl
  · rw [List.getElem?_eq_none (by simpa using hx)]; rfl

theorem flatten_map_singleton (l : List Nat) : (l.map fun i => [i]).flatten = l := by
  induction l with
  | nil => rfl
  | cons a l ih => simp [ih]

theorem flatMap_pathEdges_singletons (l : List Nat) :
    (l.map fun i => [i]).flatMap pathEdges = [] := by
  induction l with
  | nil => rfl
  | cons a l ih => simp [List.flatMap_cons, ih]

/-- The invariant holds before the scan: every node is a chain of its own. -/
theorem scanInv_init (n : Nat) :
    ScanInv n ⟨List.replicate n 0, List.range n, []⟩ ((List.range n).map fun i => [i])
      id (fun _ => 0) where
  uf := {
    len := List.length_range n
    rt_lt := fun _ hx => hx
    parent_lt := fun x hx => by rw [getD_range hx]; exact hx
    rt_parent := fun x hx => by rw [getD_range hx]
    rt_root := fun _ _ _ => rfl
    root_fix := fun x hx => getD_range hx
    desc := fun x hx hne => absurd (getD_range hx) hne }
  deg_len := List.length_replicate n 0
  deg := fun x => by simp only [getD_replicate_zero, nbrs_nil, List.length_nil]
  deg_le := fun x => by simp only [getD_replicate_zero]; omega
  flat := by rw [flatten_map_singleton]
  ne := fun c hc => by
    obtain ⟨i, _, rfl⟩ := List.mem_map.mp hc
    exact List.cons_ne_nil _ _
  adjm := fun x => by rw [flatMap_pathEdges_singletons]
  classes := fun c hc x hx y _ => by
    obtain ⟨i, _, rfl⟩ := List.mem_map.mp hc
    rw [List.mem_singleton.mp hx]
    simp
  phi := fun c hc x _ => by
    obtain ⟨i, _, rfl⟩ := List.mem_map.mp hc
    simp
  count := by simp

theorem nbM_flatMap_of_not_mem {rest : List (List Nat)} {x : Nat}
    (h : ∀ c ∈ rest, x ∉ c) : nbM (rest.flatMap pathEdges) x = 0 := by
  induction rest with
  | nil => rfl
  | cons c rest ih =>
    rw [List.flatMap_cons, nbM_append, nbM_pathEdges_of_not_mem (h c (List.mem_cons_self _ _)),
      ih (fun c' hc' => h c' (List.mem_cons_of_mem _ hc')), add_zero]

/-- The degree of a node is its number of neighbours in its own chain. -/
theorem ScanInv.degree_eq_chain {n : Nat} {s : ScanState} {c : List Nat}
    {rest : List (List Nat)} {rt φ : Nat → Nat} (h : ScanInv n s (c :: rest) rt φ) {x : Nat}
    (hx : x ∈ c) : s.degree.getD x 0 = (nbrs (pathEdges c) x).length := by
  have hnd : (c ++ rest.flatten).Nodup := by
    have := h.flat.nodup_iff.mpr (List.nodup_range n)
    simpa using this
  have hdis := (List.nodup_append.mp hnd).2.2
  have hrest : ∀ c' ∈ rest, x ∉ c' := fun c' hc' hxc' =>
    hdis hx (List.mem_flatten.mpr ⟨c', hc', hxc'⟩)
  rw [h.deg, ← card_nbM, ← card_nbM, h.adjm, List.flatMap_cons, nbM_append,
    nbM_flatMap_of_not_mem hrest, add_zero]

theorem ScanInv.nodup_chain {n : Nat} {s : ScanState} {c : List Nat}
    {rest : List (List Nat)} {rt φ : Nat → Nat} (h : ScanInv n s (c :: rest) rt φ) :
    c.Nodup := by
  have hnd : (c ++ rest.flatten).Nodup := by
    have := h.flat.nodup_iff.mpr (List.nodup_range n)
    simpa using this
  exact (List.nodup_append.mp hnd).1

theorem ScanInv.degree_head_le {n : Nat} {s : ScanState} {a : Nat} {c : List Nat}
    {rest : List (List Nat)} {rt φ : Nat → Nat} (h : ScanInv n s ((a :: c) :: rest) rt φ) :
    s.degree.getD a 0 ≤ 1 := by
  rw [h.degree_eq_chain (List.mem_cons_self _ _)]
  cases c with
  | nil => simp
  | cons b c => rw [nbrs_pathEdges_head h.nodup_chain]; simp

/-- As long as two chains are left, some pair of nodes is not settled. -/
theorem ScanInv.unsettled_pair {n : Nat} {s : ScanState} {A B : List Nat}
    {rest : List (List Nat)} {rt φ : Nat → Nat} (h : ScanInv n s (A :: B :: rest) rt φ) :
    ∃ a b, a < n ∧ b < n ∧ a ≠ b ∧ ¬ Settled s rt a b ∧ ¬ Settled s rt b a := by
  have hA : A ∈ A :: B :: rest := List.mem_cons_self _ _
  have hB : B ∈ A :: B :: rest := List.mem_cons_of_mem _ (List.mem_cons_self _ _)
  cases hA' : A with
  | nil => exact absurd hA' (h.ne A hA)
  | cons a A1 =>
    cases hB' : B with
    | nil => exact absurd hB' (h.ne B hB)
    | cons b B1 =>
      subst hA' hB'
      have ha : a ∈ a :: A1 := List.mem_cons_self _ _
      have hb : b ∈ b :: B1 := List.mem_cons_self _ _
      have han : a < n := h.mem_lt hA ha
      have hbn : b < n := h.mem_lt hB hb
      have hda := h.degree_head_le
      have hdb := (h.perm (List.Perm.swap _ _ rest)).degree_head_le
      have hnd : ((a :: A1) ++ ((b :: B1) ++ rest.flatten)).Nodup := by
        have := h.flat.nodup_iff.mpr (List.nodup_range n)
        simpa using this
      have hdis := (List.nodup_append.mp hnd).2.2
      have hbA : b ∉ a :: A1 := fun hbA => hdis hbA (List.mem_append_left _ hb)
      have hrt : rt b ≠ rt a := fun e => hbA ((h.classes _ hA a ha b hbn).mp e)
      refine ⟨a, b, han, hbn, ?_, ?_, ?_⟩
      · intro e; exact hbA (e ▸ ha)
      · rintro (h1 | h1 | h1)
        · omega
        · omega
        · exact hrt h1.symm
      · rintro (h1 | h1 | h1)
        · omega
        · omega
        · exact hrt h1

end Scan

section ScanSpec

theorem exists_perm_cons {β : Type} {l : List β} {a : β} (h : a ∈ l) :
    ∃ l', l.Perm (a :: l') := by
  obtain ⟨l1, l2, rfl⟩ := List.append_of_mem h
  exact ⟨l1 ++ l2, List.perm_middle⟩

theorem settled_after_accept {n : Nat} {s : ScanState} {rt : Nat → Nat} {u v : Nat}
    (hlen : s.degree.length = n) (hu : u < n) (hv : v < n) (huv : u ≠ v)
    (hdu : s.degree.getD u 0 ≠ 2) (hdv : s.degree.getD v 0 ≠ 2) {p3 : List Nat} {a b : Nat}
    (h : Settled s rt a b) :
    Settled ⟨(s.degree.set u (s.degree.getD u 0 + 1)).set v
        ((s.degree.set u (s.degree.getD u 0 + 1)).getD v 0 + 1),
      p3, s.selected ++ [(u, v)]⟩ (rtLink rt (rt u) (rt v)) a b := by
  have key : ∀ x, s.degree.getD x 0 = 2 →
      ((s.degree.set u (s.degree.getD u 0 + 1)).set v
        ((s.degree.set u (s.degree.getD u 0 + 1)).getD v 0 + 1)).getD x 0 = 2 := by
    intro x hx
    rw [degree_after_accept hlen hu hv huv]
    have h1 : ¬ u = x := fun e => hdu (e ▸ hx)
    have h2 : ¬ v = x := fun e => hdv (e ▸ hx)
    rw [if_neg h1, if_neg h2]; exact hx
  rcases h with h | h | h
  · exact Or.inl (key a h)
  · exact Or.inr (Or.inl (key b h))
  · right; right
    unfold rtLink
    rw [h]

/-- The main scan ends, and it ends with one chain that holds every node:
the selected edges form a Hamiltonian path. -/
theorem scan_spec {α : Type} {n fuel : Nat} (hfuel : n ≤ fuel) (es : List (Edge α)) :
    ∀ (s : ScanState) (cs : List (List Nat)) (rt φ : Nat → Nat),
      ScanInv n s cs rt φ → s.selected.length + 1 < n →
      (∀ e ∈ es, e.u < e.v ∧ e.v < n) →
      (∀ a b, a < b → b < n → Settled s rt a b ∨ ∃ e ∈ es, e.u = a ∧ e.v = b) →
      ∃ s' c rt' φ', scan fuel n s es = some s' ∧ ScanInv n s' [c] rt' φ' := by
  induction es with
  | nil =>
    intro s cs rt φ hinv hlen _ hall
    exfalso
    have hcount := hinv.count
    match cs, hinv with
    | [], _ => simp at hcount; omega
    | [c], _ => simp at hcount; omega
    | A :: B :: rest, hinv =>
      obtain ⟨a, b, han, hbn, hab, h1, h2⟩ := hinv.unsettled_pair
      rcases Nat.lt_or_gt_of_ne hab with hlt | hlt
      · rcases hall a b hlt hbn with h | ⟨e, he, _⟩
        · exact h1 h
        · cases he
      · rcases hall b a hlt han with h | ⟨e, he, _⟩
        · exact h2 h
        · cases he
  | cons e es ih =>
    intro s cs rt φ hinv hlen hes hall
    have hue := (hes e (List.mem_cons_self _ _)).1
    have hvn := (hes e (List.mem_cons_self _ _)).2
    have hun : e.u < n := Nat.lt_trans hue hvn
    have hes' : ∀ e' ∈ es, e'.u < e'.v ∧ e'.v < n := fun e' he' =>
      hes e' (List.mem_cons_of_mem _ he')
    rw [scan]
    by_cases hd : s.degree.getD e.u 0 = 2 ∨ s.degree.getD e.v 0 = 2
    · rw [if_pos hd]
      apply ih s cs rt φ hinv hlen hes'
      intro a b hab hb
      rcases hall a b hab hb with h | ⟨e', he', h1, h2⟩
      · exact Or.inl h
      · rcases List.mem_cons.mp he' with rfl | he'
        · left
          rw [← h1, ← h2]
          rcases hd with hd | hd
          · exact Or.inl hd
          · exact Or.inr (Or.inl hd)
        · exact Or.inr ⟨e', he', h1, h2⟩
    · rw [if_neg hd]
      have hdu : s.degree.getD e.u 0 ≠ 2 := fun h => hd (Or.inl h)
      have hdv : s.degree.getD e.v 0 ≠ 2 := fun h => hd (Or.inr h)
      have hφu : φ e.u < fuel := Nat.lt_of_lt_of_le (hinv.phi_lt hun) hfuel
      have hφv : φ e.v < fuel := Nat.lt_of_lt_of_le (hinv.phi_lt hvn) hfuel
      obtain ⟨p1, hf1, huf1⟩ := find_spec fuel s.parent e.u hinv.uf hun hφu
      obtain ⟨p2, hf2, huf2⟩ := find_spec fuel p1 e.v huf1 hvn hφv
      rw [hf1]; simp only
      rw [hf2]; simp only
      have hinv1 : ScanInv n ⟨s.degree, p2, s.selected⟩ cs rt φ :=
        { hinv with uf := huf2 }
      by_cases hsame : rt e.u = rt e.v
      · have hc : rt e.u = rt e.v ∧ s.selected.length < n - 1 := ⟨hsame, by omega⟩
        rw [if_pos hc]
        apply ih _ cs rt φ hinv1 hlen hes'
        intro a b hab hb
        rcases hall a b hab hb with h | ⟨e', he', h1, h2⟩
        · exact Or.inl h
        · rcases List.mem_cons.mp he' with rfl | he'
          · left
            rw [← h1, ← h2]
            exact Or.inr (Or.inr hsame)
          · exact Or.inr ⟨e', he', h1, h2⟩
      · have hc : ¬ (rt e.u = rt e.v ∧ s.selected.length < n - 1) := fun h => hsame h.1
        rw [if_neg hc]
        obtain ⟨p3, hun3, huf3⟩ := unite_spec huf2 hun hvn hφu hφv hsame
        rw [hun3]; simp only
        obtain ⟨A, hA, huA⟩ := hinv1.exists_chain hun
        obtain ⟨B, hB, hvB⟩ := hinv1.exists_chain hvn
        have hvA : e.v ∉ A := fun h =>
          hsame ((hinv1.classes A hA e.u huA e.v hvn).mpr h).symm
        have hBA : B ≠ A := fun h => hvA (h ▸ hvB)
        obtain ⟨cs1, hp1⟩ := exists_perm_cons hA
        have hB' : B ∈ cs1 := by
          rcases List.mem_cons.mp (hp1.mem_iff.mp hB) with h | h
          · exact absurd h hBA
          · exact h
        obtain ⟨rest, hp2⟩ := exists_perm_cons hB'
        have hp : cs.Perm (A :: B :: rest) := hp1.trans (List.Perm.cons A hp2)
        obtain ⟨C, hinv3⟩ := (hinv1.perm hp).accept huA hvB hdu hdv huf3
        have huv : e.u ≠ e.v := Nat.ne_of_lt hue
        by_cases hfin : (s.selected ++ [(e.u, e.v)]).length = n - 1
        · rw [if_pos hfin]
          have hcount := hinv3.count
          simp only [List.length_append, List.length_cons, List.length_nil] at hcount hfin
          have hrest : rest.length = 0 := by omega
          rw [List.length_eq_zero] at hrest
          rw [hrest] at hinv3
          exact ⟨_, C, _, _, rfl, hinv3⟩
        · rw [if_neg hfin]
          apply ih _ _ _ _ hinv3 _ hes'
          · intro a b hab hb
            rcases hall a b hab hb with h | ⟨e', he', h1, h2⟩
            · left
              exact settled_after_accept hinv.deg_len hun hvn huv hdu hdv h
            · rcases List.mem_cons.mp he' with rfl | he'
              · left
                rw [← h1, ← h2]
                right; right
                unfold rtLink
                rw [if_pos rfl, if_neg hsame]
              · exact Or.inr ⟨e', he', h1, h2⟩
          · simp only [List.length_append, List.length_cons, List.length_nil] at hfin ⊢
            omega

end ScanSpec

/-! ## The closing edge and the reconstruction of the tour -/

section Cycle

@[simp] theorem link_nil_left (Q : List Nat) : link [] Q = [] := rfl

@[simp] theorem link_nil_right (P : List Nat) : link P [] = [] := by
  unfold link
  cases P.getLast? <;> rfl

@[simp] theorem link_concat_cons (X : List Nat) (a b : Nat) (Y : List Nat) :
    link (X ++ [a]) (b :: Y) = [(a, b)] := by
  unfold link
  rw [List.getLast?_append_of_ne_nil _ (List.cons_ne_nil a [])]
  rfl

theorem link_append_left (P Q R : List Nat) (hQ : Q ≠ []) : link (P ++ Q) R = link Q R := by
  unfold link
  rw [List.getLast?_append_of_ne_nil _ hQ]

theorem link_append_right (R P Q : List Nat) (hP : P ≠ []) : link R (P ++ Q) = link R P := by
  unfold link
  cases P with
  | nil => exact absurd rfl hP
  | cons p P => rfl

theorem pathEdges_append (P Q : List Nat) :
    pathEdges (P ++ Q) = pathEdges P ++ link P Q ++ pathEdges Q := by
  cases Q with
  | nil => simp
  | cons b Y =>
    rcases List.eq_nil_or_concat P with rfl | ⟨X, a, rfl⟩
    · simp
    · rw [List.concat_eq_append, link_concat_cons, List.append_assoc, List.singleton_append,
        pathEdges_append_cons]
      simp

theorem nbM_link_reverse (P Q : List Nat) (x : Nat) :
    nbM (link Q.reverse P.reverse) x = nbM (link P Q) x := by
  unfold link
  rw [List.getLast?_reverse, List.head?_reverse]
  cases hP : P.getLast? <;> cases hQ : Q.head? <;> simp
  exact nbM_single_swap _ _ _

theorem nbM_cycEdges_rotate (P Q : List Nat) (x : Nat) :
    nbM (cycEdges (P ++ Q)) x = nbM (cycEdges (Q ++ P)) x := by
  by_cases hP : P = []
  · subst hP; simp
  by_cases hQ : Q = []
  · subst hQ; simp
  unfold cycEdges
  rw [pathEdges_append, pathEdges_append, link_append_left _ _ _ hQ,
    link_append_right _ _ _ hP, link_append_left _ _ _ hP, link_append_right _ _ _ hQ]
  simp only [nbM_append]
  abel

theorem nbM_cycEdges_reverse (r : List Nat) (x : Nat) :
    nbM (cycEdges r.reverse) x = nbM (cycEdges r) x := by
  unfold cycEdges
  rw [nbM_append, nbM_append, nbM_pathEdges_reverse, nbM_link_reverse]

/-- In a cycle without repetition the neighbours of the first node are the
second node and the last node. -/
theorem nbM_cycEdges_head {x z : Nat} {q : List Nat} (h : (x :: z :: q).Nodup) :
    ∃ l, (z :: q).getLast? = some l ∧ nbM (cycEdges (x :: z :: q)) x = {z, l} := by
  rcases List.eq_nil_or_concat (z :: q) with hnil | ⟨q', l, hq⟩
  · cases hnil
  · rw [List.concat_eq_append] at hq
    refine ⟨l, by rw [hq]; simp, ?_⟩
    have hlx : l ≠ x := by
      intro e
      have : l ∈ z :: q := by rw [hq]; simp
      rw [e] at this
      exact (List.nodup_cons.mp h).1 this
    unfold cycEdges
    have hlink : link (x :: z :: q) (x :: z :: q) = [(l, x)] := by
      rw [hq]
      exact link_concat_cons (x :: q') l x (q' ++ [l])
    rw [nbM_append, hlink]
    have h1 : nbM (pathEdges (x :: z :: q)) x = {z} := by
      unfold nbM; rw [nbrs_pathEdges_head h]; rfl
    have h2 : nbM [(l, x)] x = {l} := by
      unfold nbM nbrs
      simp [hlx]
    rw [h1, h2]
    rfl

end Cycle

section Walk

theorem addEdge_length (adj : List (List Nat)) (e : Nat × Nat) :
    (addEdge adj e).length = adj.length := by
  unfold addEdge
  simp only [List.length_set]

theorem addEdge_getD (adj : List (List Nat)) (e : Nat × Nat) (x : Nat) (hx : x < adj.length) :
    (addEdge adj e).getD x [] =
      adj.getD x [] ++ ((if e.1 = x then [e.2] else []) ++ (if e.2 = x then [e.1] else [])) := by
  unfold addEdge
  simp only
  rw [getD_set, getD_set, getD_set, List.length_set]
  by_cases h1 : e.1 = x <;> by_cases h2 : e.2 = x
  · have h12 : e.2 = e.1 := h2.trans h1.symm
    simp [h1, h2, hx]
  · have h2' : ¬ x = e.2 := fun h => h2 h.symm
    simp [h1, h2, h2', hx]
  · have h1' : ¬ x = e.1 := fun h => h1 h.symm
    have h12 : ¬ e.2 = e.1 := fun h => h1 (h ▸ h2)
    simp [h1, h2, h1', h12, hx]
  · have h1' : ¬ x = e.1 := fun h => h1 h.symm
    have h2' : ¬ x = e.2 := fun h => h2 h.symm
    simp [h1, h2, h1', h2']

theorem foldl_addEdge_getD (sel : List (Nat × Nat)) (adj : List (List Nat)) (x : Nat)
    (hx : x < adj.length) :
    (sel.foldl addEdge adj).getD x [] = adj.getD x [] ++ nbrs sel x := by
  induction sel generalizing adj with
  | nil => simp
  | cons e sel ih =>
    rw [List.foldl_cons, ih _ (by rw [addEdge_length]; exact hx), addEdge_getD _ _ _ hx,
      nbrs_cons, List.append_assoc]

/-- The list `adj[x]` holds the neighbours of `x` in the order of `selected`. -/
theorem buildAdj_getD (n : Nat) (sel : List (Nat × Nat)) {x : Nat} (hx : x < n) :
    (buildAdj n sel).getD x [] = nbrs sel x := by
  unfold buildAdj
  rw [foldl_addEdge_getD _ _ _ (by rw [List.length_replicate]; exact hx)]
  have : (List.replicate n ([] : List Nat)).getD x [] = [] := by
    rw [List.getD_eq_getElem?_getD, List.getElem?_replicate_of_lt hx]; rfl
  rw [this, List.nil_append]

/-- The two entries of `adj[x]` for a node `x` of the cycle that is not its
first node: the node before it and the node after it. -/
theorem IsCycleAdj.at {adj : List (List Nat)} {r : List Nat} (hadj : IsCycleAdj adj r)
    (hnd : r.Nodup) {pre0 : List Nat} {y x : Nat} {post : List Nat}
    (hr : r = pre0 ++ y :: x :: post) :
    ∃ z, (post ++ pre0 ++ [y]).head? = some z ∧ (adj.getD x []).Perm [z, y] := by
  have hx : x ∈ r := by rw [hr]; simp
  have h1 : r = (pre0 ++ [y]) ++ (x :: post) := by rw [hr]; simp
  have h2 := hadj x hx
  rw [h1, nbM_cycEdges_rotate] at h2
  have hnd2 : ((x :: post) ++ (pre0 ++ [y])).Nodup := by
    have : ((x :: post) ++ (pre0 ++ [y])).Perm r := by rw [h1]; exact List.perm_append_comm
    exact this.nodup_iff.mpr hnd
  cases hzq : post ++ pre0 ++ [y] with
  | nil => simp at hzq
  | cons z q =>
    have h3 : (x :: post) ++ (pre0 ++ [y]) = x :: z :: q := by
      rw [← hzq]; simp
    rw [h3] at h2 hnd2
    obtain ⟨l, hl, hnb⟩ := nbM_cycEdges_head hnd2
    rw [← hzq, List.getLast?_append_of_ne_nil _ (List.cons_ne_nil y []),
      List.getLast?_singleton, Option.some.injEq] at hl
    subst hl
    refine ⟨z, rfl, ?_⟩
    rw [hnb] at h2
    exact Multiset.coe_eq_coe.mp h2

/-- From the second node on, the walk follows the cycle to its end and stops
when it is about to return to the first node. -/
theorem walk_spec {adj : List (List Nat)} {r : List Nat} (hadj : IsCycleAdj adj r)
    (hnd : r.Nodup) :
    ∀ (post pre0 : List Nat) (y x : Nat), r = pre0 ++ y :: x :: post →
      ∀ fuel, post.length < fuel →
        walk adj fuel (pre0 ++ [y, x]) (Int.ofNat y) x = some r := by
  intro post
  induction post with
  | nil =>
    intro pre0 y x hr fuel hfuel
    obtain ⟨f, rfl⟩ : ∃ f, fuel = f + 1 := ⟨fuel - 1, by omega⟩
    obtain ⟨z, hz, hperm⟩ := hadj.at hnd hr
    have hzh : z = (pre0 ++ [y, x]).getD 0 0 := by
      cases pre0 with
      | nil => simp at hz ⊢; exact hz.symm
      | cons p pre0 => simp at hz ⊢; exact hz.symm
    rw [walk]
    rcases perm_pair hperm with h | h
    · rw [h]
      simp only [List.getElem?_cons_zero, List.getElem?_cons_succ]
      by_cases hzy : Int.ofNat z ≠ Int.ofNat y
      · rw [if_pos hzy]; simp only
        rw [if_pos hzh, hr]
      · rw [if_neg hzy]; simp only
        have hyz : y = z := (Int.ofNat.inj (not_not.mp hzy)).symm
        subst hyz
        rw [if_pos hzh, hr]
    · rw [h]
      simp only [List.getElem?_cons_zero, List.getElem?_cons_succ, ne_eq, not_true_eq_false,
        if_false]
      rw [if_pos hzh, hr]
  | cons z' post ih =>
    intro pre0 y x hr fuel hfuel
    obtain ⟨f, rfl⟩ : ∃ f, fuel = f + 1 := ⟨fuel - 1, by omega⟩
    obtain ⟨z, hz, hperm⟩ := hadj.at hnd hr
    simp only [List.cons_append, List.head?_cons, Option.some.injEq] at hz
    subst hz
    have hzt : z' ∉ pre0 ++ [y, x] := by
      rw [hr] at hnd
      have h1 : pre0 ++ y :: x :: z' :: post = (pre0 ++ [y, x]) ++ (z' :: post) := by simp
      rw [h1] at hnd
      exact fun hmem => (List.nodup_append.mp hnd).2.2 hmem (List.mem_cons_self _ _)
    have hzh : ¬ z' = (pre0 ++ [y, x]).getD 0 0 := by
      intro e
      apply hzt
      rw [e]
      cases pre0 with
      | nil => simp
      | cons p pre0 => simp
    have hrec : walk adj f (pre0 ++ [y, x] ++ [z']) (Int.ofNat x) z' = some r := by
      have := ih (pre0 ++ [y]) x z' (by rw [hr]; simp) f (by simp at hfuel; omega)
      simpa using this
    rw [walk]
    rcases perm_pair hperm with h | h
    · rw [h]
      simp only [List.getElem?_cons_zero, List.getElem?_cons_succ]
      by_cases hzy : Int.ofNat z' ≠ Int.ofNat y
      · rw [if_pos hzy]; simp only
        rw [if_neg hzh]; exact hrec
      · rw [if_neg hzy]; simp only
        have hyz : y = z' := (Int.ofNat.inj (not_not.mp hzy)).symm
        subst hyz
        rw [if_neg hzh]; exact hrec
    · rw [h]
      simp only [List.getElem?_cons_zero, List.getElem?_cons_succ, ne_eq, not_true_eq_false,
        if_false]
      rw [if_neg hzh]; exact hrec

end Walk

section Close

theorem IsCycleAdj.of_nbM {adj : List (List Nat)} {r r2 : List Nat} (h : IsCycleAdj adj r)
    (hp : r2.Perm r) (hnb : ∀ x, nbM (cycEdges r2) x = nbM (cycEdges r) x) :
    IsCycleAdj adj r2 := fun x hx => by
  rw [hnb]; exact h x (hp.mem_iff.mp hx)

/-- The reconstruction walk, started at node 0, returns the cycle in one of its
two directions. -/
theorem walk_start {adj : List (List Nat)} {z : Nat} {q : List Nat}
    (hadj : IsCycleAdj adj (0 :: z :: q)) (hnd : (0 :: z :: q).Nodup) (fuel : Nat)
    (hfuel : q.length + 2 ≤ fuel) :
    walk adj fuel [0] (-1) 0 = some (0 :: z :: q) ∨
    walk adj fuel [0] (-1) 0 = some (0 :: (z :: q).reverse) := by
  obtain ⟨f, rfl⟩ : ∃ f, fuel = f + 1 := ⟨fuel - 1, by omega⟩
  obtain ⟨l, hl, hnb⟩ := nbM_cycEdges_head hnd
  have h0 := hadj 0 (List.mem_cons_self _ _)
  rw [hnb] at h0
  have hperm : (adj.getD 0 []).Perm [z, l] := Multiset.coe_eq_coe.mp h0
  have hneg : ∀ a : Nat, Int.ofNat a ≠ -1 := fun a h => by
    have h1 : (0 : Int) ≤ Int.ofNat a := Int.ofNat_nonneg a
    rw [h] at h1
    exact absurd h1 (by decide)
  have hz0 : ¬ z = ([0] : List Nat).getD 0 0 := by
    intro e
    have : (0 : Nat) ∈ z :: q := by rw [e]; simp
    exact (List.nodup_cons.mp hnd).1 this
  have hl0 : ¬ l = ([0] : List Nat).getD 0 0 := by
    intro e
    have h1 : l ∈ z :: q := List.mem_of_getLast?_eq_some hl
    have : (0 : Nat) ∈ z :: q := by rw [e] at h1; simpa using h1
    exact (List.nodup_cons.mp hnd).1 this
  have hfwd : walk adj f ([0] ++ [z]) (Int.ofNat 0) z = some (0 :: z :: q) :=
    walk_spec hadj hnd q [] 0 z rfl f (by omega)
  have hbwd : walk adj f ([0] ++ [l]) (Int.ofNat 0) l = some (0 :: (z :: q).reverse) := by
    obtain ⟨q2, hq2⟩ : ∃ q2, (z :: q).reverse = l :: q2 := by
      cases hrev : (z :: q).reverse with
      | nil => simp at hrev
      | cons a q2 =>
        have : (z :: q).getLast? = some a := by
          rw [← List.head?_reverse, hrev]; rfl
        rw [hl, Option.some.injEq] at this
        exact ⟨q2, by rw [this]⟩
    have hrot : ∀ x, nbM (cycEdges (0 :: (z :: q).reverse)) x =
        nbM (cycEdges (0 :: z :: q)) x := by
      intro x
      have e1 : 0 :: (z :: q).reverse = [0] ++ (z :: q).reverse := rfl
      have e2 : (z :: q).reverse ++ [0] = (0 :: z :: q).reverse := by simp
      rw [e1, nbM_cycEdges_rotate, e2, nbM_cycEdges_reverse]
    have hp2 : (0 :: (z :: q).reverse).Perm (0 :: z :: q) :=
      List.Perm.cons 0 (List.reverse_perm _)
    have hadj2 := hadj.of_nbM hp2 hrot
    have hnd2 := hp2.nodup_iff.mpr hnd
    have hlen : q2.length = q.length := by
      have := congrArg List.length hq2
      simp at this
      omega
    rw [hq2] at hadj2 hnd2 ⊢
    exact walk_spec hadj2 hnd2 q2 [] 0 l rfl f (by omega)
  rw [walk]
  rcases perm_pair hperm with h | h
  · left
    rw [h]
    simp only [List.getElem?_cons_zero]
    rw [if_pos (hneg z)]; simp only
    rw [if_neg hz0]; exact hfwd
  · right
    rw [h]
    simp only [List.getElem?_cons_zero]
    rw [if_pos (hneg l)]; simp only
    rw [if_neg hl0]; exact hbwd

end Close

section CloseTour

theorem degree_one_iff {c : List Nat} (hnd : c.Nodup) (hlen : 2 ≤ c.length) {x : Nat}
    (hx : x ∈ c) :
    (nbrs (pathEdges c) x).length = 1 ↔ (c.head? = some x ∨ c.getLast? = some x) := by
  constructor
  · intro h
    exact endpoint_of_degree_lt_two hx (by omega)
  · have hhead : ∀ (c' : List Nat), c'.Nodup → 2 ≤ c'.length → c'.head? = some x →
        (nbrs (pathEdges c') x).length = 1 := by
      intro c' hnd' hlen' hh
      match c', hlen', hh with
      | a :: b :: rest, _, hh =>
        simp only [List.head?_cons, Option.some.injEq] at hh
        subst hh
        rw [nbrs_pathEdges_head hnd']; rfl
    rintro (h | h)
    · exact hhead c hnd hlen h
    · rw [← card_nbM, ← nbM_pathEdges_reverse, card_nbM]
      apply hhead c.reverse (List.nodup_reverse.mpr hnd) (by rw [List.length_reverse]; exact hlen)
      rw [List.head?_reverse]; exact h

/-- After the scan has left one chain, the second half of `greedyInitialization`
returns a valid closed tour that starts at node 0. -/
theorem closeTour_spec {n fuel : Nat} {s : ScanState} {c : List Nat} {rt φ : Nat → Nat}
    (hinv : ScanInv n s [c] rt φ) (hn : 2 ≤ n) (hfuel : n ≤ fuel) :
    ∃ t, closeTour n fuel s = some t ∧ ValidTour n t ∧ t.head? = some 0 := by
  have hflat : c.Perm (List.range n) := by
    have := hinv.flat
    simpa using this
  have hnd : c.Nodup := hflat.nodup_iff.mpr (List.nodup_range n)
  have hlen : c.length = n := by rw [hflat.length_eq, List.length_range]
  have hmem : ∀ x, x ∈ c ↔ x < n := fun x => by rw [hflat.mem_iff, List.mem_range]
  match c, hlen, hinv, hflat, hnd, hmem with
  | [], hlen, _, _, _, _ => simp at hlen; omega
  | [a], hlen, _, _, _, _ => simp at hlen; omega
  | h :: z :: q, hlen, hinv, hflat, hnd, hmem =>
    obtain ⟨l, hl, hnb⟩ := nbM_cycEdges_head hnd
    have hl' : (h :: z :: q).getLast? = some l := by
      rw [List.getLast?_cons_cons]; exact hl
    have hlmem : l ∈ z :: q := List.mem_of_getLast?_eq_some hl
    have hhl : h ≠ l := fun e => (List.nodup_cons.mp hnd).1 (e ▸ hlmem)
    have hlen2 : 2 ≤ (h :: z :: q).length := by simp
    -- the two endpoints
    have hends : ∀ x, x ∈ endpoints n s.degree ↔ x ∈ [h, l] := by
      intro x
      unfold endpoints
      rw [List.mem_filter, List.mem_range, decide_eq_true_eq]
      constructor
      · rintro ⟨hx, hdeg⟩
        have hxc := (hmem x).mpr hx
        rw [hinv.degree_eq_chain hxc, degree_one_iff hnd hlen2 hxc] at hdeg
        rcases hdeg with hdeg | hdeg
        · simp only [List.head?_cons, Option.some.injEq] at hdeg
          simp [hdeg]
        · rw [hl', Option.some.injEq] at hdeg
          simp [hdeg]
      · intro hx
        simp only [List.mem_cons, List.mem_singleton, List.not_mem_nil, or_false] at hx
        have hxc : x ∈ h :: z :: q := by
          rcases hx with rfl | rfl
          · exact List.mem_cons_self _ _
          · exact List.mem_cons_of_mem _ hlmem
        refine ⟨(hmem x).mp hxc, ?_⟩
        rw [hinv.degree_eq_chain hxc, degree_one_iff hnd hlen2 hxc]
        rcases hx with rfl | rfl
        · left; rfl
        · right; exact hl'
    have hendsnd : (endpoints n s.degree).Nodup := (List.nodup_range n).filter _
    have hpairnd : [h, l].Nodup := by simp [hhl]
    have hendsperm : (endpoints n s.degree).Perm [h, l] :=
      (List.perm_ext_iff_of_nodup hendsnd hpairnd).mpr hends
    -- the closing edge and the adjacency lists
    have hclose : ∀ e0 e1, ((e0 = h ∧ e1 = l) ∨ (e0 = l ∧ e1 = h)) →
        IsCycleAdj (buildAdj n (s.selected ++ [(e0, e1)])) (h :: z :: q) := by
      intro e0 e1 he x hx
      rw [buildAdj_getD n _ ((hmem x).mp hx)]
      show nbM (s.selected ++ [(e0, e1)]) x = _
      have hlink : link (h :: z :: q) (h :: z :: q) = [(l, h)] := by
        unfold link
        rw [hl']; rfl
      unfold cycEdges
      rw [nbM_append, nbM_append, hinv.adjm, hlink, List.flatMap_cons, List.flatMap_nil,
        List.append_nil]
      rcases he with ⟨rfl, rfl⟩ | ⟨rfl, rfl⟩
      · rw [nbM_single_swap]
      · rfl
    -- rotate the chain so that it starts at node 0
    have h0 : 0 ∈ h :: z :: q := (hmem 0).mpr (by omega)
    obtain ⟨P, Q, hPQ⟩ := List.append_of_mem h0
    have hrotp : ((0 :: Q) ++ P).Perm (h :: z :: q) := by
      rw [hPQ]; exact List.perm_append_comm
    have hrotnb : ∀ x, nbM (cycEdges ((0 :: Q) ++ P)) x = nbM (cycEdges (h :: z :: q)) x := by
      intro x; rw [hPQ]; exact nbM_cycEdges_rotate _ _ _
    have hrotnd : ((0 :: Q) ++ P).Nodup := hrotp.nodup_iff.mpr hnd
    have hrotlen : ((0 :: Q) ++ P).length = n := by rw [hrotp.length_eq]; exact hlen
    have hfinal : ∀ e0 e1, ((e0 = h ∧ e1 = l) ∨ (e0 = l ∧ e1 = h)) →
        ∃ t, walk (buildAdj n (s.selected ++ [(e0, e1)])) fuel [0] (-1) 0 = some t ∧
          t.Perm (List.range n) ∧ t.head? = some 0 := by
      intro e0 e1 he
      have hadj := (hclose e0 e1 he).of_nbM hrotp hrotnb
      match hQP : Q ++ P, hrotlen with
      | [], hrotlen =>
        rw [List.cons_append, hQP] at hrotlen
        simp at hrotlen; omega
      | z2 :: q2, hrotlen =>
        rw [List.cons_append, hQP] at hadj hrotnd hrotlen hrotp
        have hq2 : q2.length + 2 ≤ fuel := by
          simp only [List.length_cons] at hrotlen; omega
        rcases walk_start hadj hrotnd fuel hq2 with hw | hw
        · exact ⟨_, hw, hrotp.trans hflat, rfl⟩
        · refine ⟨_, hw, ?_, rfl⟩
          exact ((List.Perm.cons 0 (List.reverse_perm _)).trans hrotp).trans hflat
    have hvalid : ∀ t : List Nat, t.Perm (List.range n) → t.head? = some 0 →
        ValidTour n (t ++ [t.getD 0 0]) ∧ (t ++ [t.getD 0 0]).head? = some 0 := by
      intro t ht hh
      have htl : t.length = n := by rw [ht.length_eq, List.length_range]
      match t, hh, htl, ht with
      | a :: t', hh, htl, ht =>
        simp only [List.head?_cons, Option.some.injEq] at hh
        subst hh
        refine ⟨⟨?_, ?_, ?_⟩, rfl⟩
        · simp only [List.length_append, List.length_singleton]; omega
        · rw [List.take_append_of_le_length (by omega), List.take_of_length_le (by omega)]
          exact ht
        · rw [List.getLast?_append_of_ne_nil _ (List.cons_ne_nil _ _)]
          rfl
    unfold closeTour
    rcases perm_pair hendsperm with he | he
    · obtain ⟨t, hw, ht, hh⟩ := hfinal h l (Or.inl ⟨rfl, rfl⟩)
      rw [he]
      simp only [List.getElem?_cons_zero, List.getElem?_cons_succ]
      rw [hw]
      exact ⟨_, rfl, hvalid t ht hh⟩
    · obtain ⟨t, hw, ht, hh⟩ := hfinal l h (Or.inr ⟨rfl, rfl⟩)
      rw [he]
      simp only [List.getElem?_cons_zero, List.getElem?_cons_succ]
      rw [hw]
      exact ⟨_, rfl, hvalid t ht hh⟩

end CloseTour

section Greedy

variable {α : Type}

theorem mem_allEdges {inst : TSPInstance α} {e : Edge α} :
    e ∈ allEdges inst ↔ e.u < e.v ∧ e.v < inst.n ∧ e.w = inst.cost e.u e.v := by
  unfold allEdges
  simp only [List.mem_flatMap, List.mem_range, List.mem_map, List.mem_range'_1]
  constructor
  · rintro ⟨i, hi, j, hj, rfl⟩
    rw [Nat.add_sub_cancel' (Nat.succ_le_of_lt hi)] at hj
    exact ⟨hj.1, hj.2, rfl⟩
  · rintro ⟨h1, h2, h3⟩
    refine ⟨e.u, Nat.lt_trans h1 h2, e.v, ?_, ?_⟩
    · rw [Nat.add_sub_cancel' (Nat.succ_le_of_lt (Nat.lt_trans h1 h2))]
      exact ⟨h1, h2⟩
    · cases e
      simp only at h3
      simp [h3]

/-- The construction returns, and what it returns is a valid closed tour that
starts at node 0, whatever permutation of the edges the sort produces. -/
theorem greedy_spec (sortEdges : List (Edge α) → List (Edge α))
    (hperm : ∀ l, (sortEdges l).Perm l) (inst : TSPInstance α) (hn : 2 ≤ inst.n)
    (fuel : Nat) (hfuel : inst.n ≤ fuel) :
    ∃ t, greedyInitialization sortEdges inst fuel = some t ∧ ValidTour inst.n t ∧
      t.head? = some 0 := by
  have hes : ∀ e ∈ sortEdges (allEdges inst), e.u < e.v ∧ e.v < inst.n := by
    intro e he
    have := mem_allEdges.mp ((hperm _).mem_iff.mp he)
    exact ⟨this.1, this.2.1⟩
  have hall : ∀ a b, a < b → b < inst.n →
      Settled ⟨List.replicate inst.n 0, List.range inst.n, []⟩ id a b ∨
        ∃ e ∈ sortEdges (allEdges inst), e.u = a ∧ e.v = b := by
    intro a b hab hb
    right
    refine ⟨⟨a, b, inst.cost a b⟩, ?_, rfl, rfl⟩
    exact (hperm _).mem_iff.mpr (mem_allEdges.mpr ⟨hab, hb, rfl⟩)
  obtain ⟨s', c, rt', φ', hscan, hinv⟩ :=
    scan_spec hfuel (sortEdges (allEdges inst)) _ _ _ _ (scanInv_init inst.n)
      (by simp only [List.length_nil]; omega) hes hall
  obtain ⟨t, ht, hv, hh⟩ := closeTour_spec hinv hn hfuel
  refine ⟨t, ?_, hv, hh⟩
  unfold greedyInitialization
  rw [hscan]
  exact ht

end Greedy

/-! ## The loop of `solve` -/

section Loop

variable {α : Type} [LinearOrder α] [Add α] [Zero α]

/-- One pass keeps a valid closed tour valid, with its first and last node. -/
theorem twoOpt_validTour {sortCuts : List (Cut α) → List (Cut α)}
    (hsort : ∀ l, (sortCuts l).Perm l) {inst : TSPInstance α} {T : List Nat}
    (hT : ValidTour inst.n T) :
    ValidTour inst.n (twoOptLongEdgeFirst sortCuts inst T).2 ∧
    (twoOptLongEdgeFirst sortCuts inst T).2.head? = T.head? ∧
    (twoOptLongEdgeFirst sortCuts inst T).2.getLast? = T.getLast? := by
  cases hb : (twoOptLongEdgeFirst sortCuts inst T).1 with
  | false =>
    rw [(twoOpt_false hb).1]
    exact ⟨hT, rfl, rfl⟩
  | true =>
    obtain ⟨c, hc, j, hcj, hj, h3, _⟩ := twoOpt_true hb
    have hc' := mem_buildCuts ((hsort _).mem_iff.mp hc)
    rw [h3]
    exact validTour_reverseSegment hT hc'.1 (Nat.le_of_lt hcj) hj

/-- A valid closed tour is a permutation of the nodes followed by its first node. -/
theorem validTour_mem_tours {n : Nat} (hn : 1 ≤ n) {t : List Nat} (ht : ValidTour n t) :
    t ∈ (List.range n).permutations.map (fun p => p ++ [p.getD 0 0]) := by
  obtain ⟨hlen, hperm, hclosed⟩ := ht
  rw [List.mem_map]
  refine ⟨t.take n, List.mem_permutations.mpr hperm, ?_⟩
  have hsplit : t.take n ++ t.drop n = t := List.take_append_drop n t
  have hdl : (t.drop n).length = 1 := by rw [List.length_drop]; omega
  match hd : t.drop n, hdl with
  | [b], _ =>
    rw [hd] at hsplit
    match t, hlen, hclosed, hsplit with
    | a :: t', hlen, hclosed, hsplit =>
      obtain ⟨m, rfl⟩ : ∃ m, n = m + 1 := ⟨n - 1, by omega⟩
      have hlast : (a :: t').getLast? = some b := by
        rw [← hsplit, List.getLast?_append_of_ne_nil _ (List.cons_ne_nil b [])]; rfl
      rw [hlast] at hclosed
      simp only [List.head?_cons, Option.some.injEq] at hclosed
      subst hclosed
      simp only [List.take_succ_cons, List.getD_cons_zero] at hsplit ⊢
      exact hsplit

/-- The loop of `solve` stops: with more fuel than there are valid tours it
returns a valid tour on which a further pass finds no improvement. -/
theorem refineLoop_spec {sortCuts : List (Cut α) → List (Cut α)}
    (hsort : ∀ l, (sortCuts l).Perm l) (inst : TSPInstance α) (hn : 1 ≤ inst.n) :
    ∀ (fuel : Nat) (T : List Nat), ValidTour inst.n T →
      (((List.range inst.n).permutations.map (fun p => p ++ [p.getD 0 0])).toFinset.filter
        (fun s => tourLength inst s < tourLength inst T)).card < fuel →
      ∃ t, refineLoop sortCuts inst fuel T = some t ∧ ValidTour inst.n t ∧
        t.head? = T.head? ∧ twoOptLongEdgeFirst sortCuts inst t = (false, t) := by
  intro fuel
  induction fuel with
  | zero => intro T _ h; omega
  | succ k ih =>
    intro T hT hμ
    rw [refineLoop]
    cases hb : (twoOptLongEdgeFirst sortCuts inst T).1 with
    | false =>
      have h2 := (twoOpt_false hb).1
      have he : twoOptLongEdgeFirst sortCuts inst T = (false, T) := Prod.ext hb h2
      rw [he]
      exact ⟨T, rfl, hT, rfl, he⟩
    | true =>
      have he : twoOptLongEdgeFirst sortCuts inst T =
          (true, (twoOptLongEdgeFirst sortCuts inst T).2) := Prod.ext hb rfl
      obtain ⟨hval, hhead, _⟩ := twoOpt_validTour hsort hT
      obtain ⟨c, _, j, _, _, h3, h4⟩ := twoOpt_true hb
      rw [← h3] at h4
      set T' := (twoOptLongEdgeFirst sortCuts inst T).2 with hT'
      rw [he]
      simp only
      have hlt : (((List.range inst.n).permutations.map
            (fun p => p ++ [p.getD 0 0])).toFinset.filter
          (fun s => tourLength inst s < tourLength inst T')).card <
          (((List.range inst.n).permutations.map
            (fun p => p ++ [p.getD 0 0])).toFinset.filter
          (fun s => tourLength inst s < tourLength inst T)).card := by
        apply Finset.card_lt_card
        rw [Finset.ssubset_iff_of_subset]
        · refine ⟨T', ?_, ?_⟩
          · rw [Finset.mem_filter, List.mem_toFinset]
            exact ⟨validTour_mem_tours hn hval, h4⟩
          · rw [Finset.mem_filter]
            exact fun h => lt_irrefl _ h.2
        · intro s hs
          rw [Finset.mem_filter] at hs ⊢
          exact ⟨hs.1, lt_trans hs.2 h4⟩
      obtain ⟨t, h1, h2, h3', h4'⟩ := ih T' hval (by omega)
      exact ⟨t, h1, h2, h3'.trans hhead, h4'⟩

theorem card_tours_le (inst : TSPInstance α) (T : List Nat) :
    (((List.range inst.n).permutations.map (fun p => p ++ [p.getD 0 0])).toFinset.filter
      (fun s => tourLength inst s < tourLength inst T)).card ≤ inst.n.factorial := by
  refine le_trans (Finset.card_filter_le _ _) ?_
  refine le_trans (List.toFinset_card_le _) ?_
  rw [List.length_map, List.length_permutations, List.length_range]

/-- The method `solve` returns when it has more fuel than `n!`. -/
theorem solve_spec (sortEdges : List (Edge α) → List (Edge α))
    (hE : ∀ l, (sortEdges l).Perm l) (sortCuts : List (Cut α) → List (Cut α))
    (hC : ∀ l, (sortCuts l).Perm l) (inst : TSPInstance α) (hn : 2 ≤ inst.n)
    (fuel : Nat) (hfuel : inst.n.factorial < fuel) :
    ∃ r, solve sortEdges sortCuts inst fuel = some r ∧ ValidTour inst.n r.tour ∧
      r.tour.head? = some 0 ∧ twoOptLongEdgeFirst sortCuts inst r.tour = (false, r.tour) := by
  have hnf : inst.n ≤ fuel := le_trans (Nat.self_le_factorial inst.n) (Nat.le_of_lt hfuel)
  obtain ⟨t0, hg, hv0, hh0⟩ := greedy_spec sortEdges hE inst hn fuel hnf
  obtain ⟨t, hl, hv, hh, hfix⟩ := refineLoop_spec hC inst (by omega) fuel t0 hv0
    (Nat.lt_of_le_of_lt (card_tours_le inst t0) hfuel)
  refine ⟨⟨t, tourLength inst t⟩, ?_, hv, hh.trans hh0, hfix⟩
  unfold solve
  rw [hg]; simp only
  rw [hl]

end Loop

/-! ## The order of the moves in `twoOptLongEdgeFirst` -/

section Order

variable {α : Type} [LinearOrder α] [Add α] [Zero α]

omit [LinearOrder α] [Add α] [Zero α] in
theorem mem_buildCuts_length {inst : TSPInstance α} {tour : List Nat} {c : Cut α}
    (h : c ∈ buildCuts inst tour) :
    c.length = inst.cost (tour.getD (c.i - 1) 0) (tour.getD c.i 0) := by
  unfold buildCuts at h
  rw [List.mem_map] at h
  obtain ⟨i, _, rfl⟩ := h
  rfl

omit [LinearOrder α] [Add α] [Zero α] in
theorem buildCuts_positions (inst : TSPInstance α) (tour : List Nat) :
    (buildCuts inst tour).map (fun c => c.i) = List.range' 1 (inst.n - 2) := by
  unfold buildCuts
  rw [List.map_map]
  exact List.map_id _

omit [LinearOrder α] [Add α] [Zero α] in
theorem mem_secondCutPositions {inst : TSPInstance α} {i j : Nat} :
    j ∈ secondCutPositions inst i ↔ i < j ∧ j < inst.n := by
  unfold secondCutPositions
  rw [List.mem_range'_1]
  omega

/-- The inner loop tries the candidates of `j = i + 1, …, n - 1` in this order. -/
theorem tryCut_eq (inst : TSPInstance α) (tour : List Nat) (best : α) (i : Nat) :
    tryCut inst tour best i =
      (secondCutPositions inst i).findSome? fun j =>
        if tourLength inst (reverseSegment tour i j) < best
        then some (reverseSegment tour i j) else none := rfl

/-- The candidate that the inner loop returns is the first strictly shorter one. -/
theorem tryCut_some_first {inst : TSPInstance α} {tour : List Nat} {best : α} {i : Nat}
    {cand : List Nat} (h : tryCut inst tour best i = some cand) :
    ∃ j, i < j ∧ j < inst.n ∧ cand = reverseSegment tour i j ∧
      tourLength inst cand < best ∧
      ∀ j', i < j' → j' < j → ¬ tourLength inst (reverseSegment tour i j') < best := by
  rw [tryCut_eq, List.findSome?_eq_some_iff] at h
  obtain ⟨l1, j, l2, hl, hj, hpre⟩ := h
  have hjm : j ∈ secondCutPositions inst i := by rw [hl]; simp
  have hj' := mem_secondCutPositions.mp hjm
  have hsorted : (secondCutPositions inst i).Pairwise (· < ·) := by
    unfold secondCutPositions
    exact List.pairwise_lt_range' _ _
  rw [hl] at hsorted
  split at hj
  · next hlt =>
    cases hj
    refine ⟨j, hj'.1, hj'.2, rfl, hlt, ?_⟩
    intro j' h1 h2 hshort
    have hj'm : j' ∈ secondCutPositions inst i := mem_secondCutPositions.mpr ⟨h1, by omega⟩
    rw [hl] at hj'm
    rcases List.mem_append.mp hj'm with hm | hm
    · have := hpre j' hm
      rw [if_pos hshort] at this
      cases this
    · rcases List.mem_cons.mp hm with e | hm
      · omega
      · have h3 := (List.pairwise_append.mp hsorted).2.1
        have := (List.pairwise_cons.mp h3).1 j' hm
        omega
  · cases hj

end Order

/-! ## Ties in the sort of the edges -/

section Ties

variable {α : Type} [LinearOrder α]

end Ties

/-! ## The accepted edges form a Hamiltonian path -/

section Forest

theorem noCycle_nil : NoCycle [] := by
  intro pre u v post h
  simp at h

/-- A triangle is a cycle: `NoCycle` rejects it. -/
theorem not_noCycle_triangle : ¬ NoCycle [(0, 1), (1, 2), (0, 2)] := by
  intro h
  apply h [(0, 1), (1, 2)] 0 2 [] rfl
  exact Relation.ReflTransGen.tail
    (Relation.ReflTransGen.single (Or.inl (List.mem_cons_self _ _)))
    (Or.inl (List.mem_cons_of_mem _ (List.mem_cons_self _ _)))

/-- An edge that is taken twice is a cycle: `NoCycle` rejects it. -/
theorem not_noCycle_double : ¬ NoCycle [(0, 1), (0, 1)] := by
  intro h
  apply h [(0, 1)] 0 1 [] rfl
  exact Relation.ReflTransGen.single (Or.inl (List.mem_cons_self _ _))

theorem noCycle_snoc {sel : List (Nat × Nat)} {u v : Nat} (h : NoCycle sel)
    (huv : ¬ Joined sel u v) : NoCycle (sel ++ [(u, v)]) := by
  intro pre a b post hsplit
  rcases List.eq_nil_or_concat post with rfl | ⟨post', e, rfl⟩
  · have := List.append_inj' hsplit rfl
    obtain ⟨h1, h2⟩ := this
    simp only [List.cons.injEq, Prod.mk.injEq, and_true] at h2
    rw [← h1, ← h2.1, ← h2.2]
    exact huv
  · rw [List.concat_eq_append] at hsplit
    have h1 : pre ++ (a, b) :: (post' ++ [e]) = (pre ++ (a, b) :: post') ++ [e] := by simp
    rw [h1] at hsplit
    have := (List.append_inj' hsplit rfl).1
    exact h pre a b post' this

/-- When every edge stays inside a class of `rt`, joined nodes have the same root. -/
theorem rt_eq_of_joined {sel : List (Nat × Nat)} {rt : Nat → Nat}
    (h : ∀ e ∈ sel, rt e.1 = rt e.2) {a b : Nat} (hab : Joined sel a b) : rt a = rt b := by
  induction hab with
  | refl => rfl
  | tail _ hstep ih =>
    rcases hstep with hm | hm
    · exact ih.trans (h _ hm)
    · exact ih.trans (h _ hm).symm

theorem rtLink_edges {sel : List (Nat × Nat)} {rt : Nat → Nat} {u v : Nat}
    (h : ∀ e ∈ sel, rt e.1 = rt e.2) :
    ∀ e ∈ sel ++ [(u, v)], rtLink rt (rt u) (rt v) e.1 = rtLink rt (rt u) (rt v) e.2 := by
  intro e he
  rcases List.mem_append.mp he with he | he
  · unfold rtLink
    rw [h e he]
  · rw [List.mem_singleton.mp he]
    unfold rtLink
    simp only [if_true]
    split <;> rfl

end Forest

section ScanPath

/-- The main scan ends with a Hamiltonian path: one chain holds every node, the
accepted edges have no cycle, and they are taken from the edge list in its order. -/
theorem scan_path_spec {α : Type} {n fuel : Nat} (hfuel : n ≤ fuel) (es : List (Edge α)) :
    ∀ (s : ScanState) (cs : List (List Nat)) (rt φ : Nat → Nat),
      ScanInv n s cs rt φ → s.selected.length + 1 < n →
      (∀ e ∈ es, e.u < e.v ∧ e.v < n) →
      (∀ a b, a < b → b < n → Settled s rt a b ∨ ∃ e ∈ es, e.u = a ∧ e.v = b) →
      (∀ e ∈ s.selected, rt e.1 = rt e.2) → NoCycle s.selected →
      ∃ s' c rt' φ' l, scan fuel n s es = some s' ∧ ScanInv n s' [c] rt' φ' ∧
        NoCycle s'.selected ∧ s'.selected = s.selected ++ l ∧
        l.Sublist (es.map fun e => (e.u, e.v)) := by
  induction es with
  | nil =>
    intro s cs rt φ hinv hlen _ hall _ _
    exfalso
    have hcount := hinv.count
    match cs, hinv with
    | [], _ => simp at hcount; omega
    | [c], _ => simp at hcount; omega
    | A :: B :: rest, hinv =>
      obtain ⟨a, b, han, hbn, hab, h1, h2⟩ := hinv.unsettled_pair
      rcases Nat.lt_or_gt_of_ne hab with hlt | hlt
      · rcases hall a b hlt hbn with h | ⟨e, he, _⟩
        · exact h1 h
        · cases he
      · rcases hall b a hlt han with h | ⟨e, he, _⟩
        · exact h2 h
        · cases he
  | cons e es ih =>
    intro s cs rt φ hinv hlen hes hall hedges hnc
    have hue := (hes e (List.mem_cons_self _ _)).1
    have hvn := (hes e (List.mem_cons_self _ _)).2
    have hun : e.u < n := Nat.lt_trans hue hvn
    have hes' : ∀ e' ∈ es, e'.u < e'.v ∧ e'.v < n := fun e' he' =>
      hes e' (List.mem_cons_of_mem _ he')
    rw [scan]
    by_cases hd : s.degree.getD e.u 0 = 2 ∨ s.degree.getD e.v 0 = 2
    · rw [if_pos hd]
      have hall' : ∀ a b, a < b → b < n →
          Settled s rt a b ∨ ∃ e' ∈ es, e'.u = a ∧ e'.v = b := by
        intro a b hab hb
        rcases hall a b hab hb with h | ⟨e', he', h1, h2⟩
        · exact Or.inl h
        · rcases List.mem_cons.mp he' with rfl | he'
          · left
            rw [← h1, ← h2]
            rcases hd with hd | hd
            · exact Or.inl hd
            · exact Or.inr (Or.inl hd)
          · exact Or.inr ⟨e', he', h1, h2⟩
      obtain ⟨s', c, rt', φ', l, h1, h2, h3, h4, h5⟩ :=
        ih s cs rt φ hinv hlen hes' hall' hedges hnc
      exact ⟨s', c, rt', φ', l, h1, h2, h3, h4, by
        rw [List.map_cons]; exact List.Sublist.cons _ h5⟩
    · rw [if_neg hd]
      have hdu : s.degree.getD e.u 0 ≠ 2 := fun h => hd (Or.inl h)
      have hdv : s.degree.getD e.v 0 ≠ 2 := fun h => hd (Or.inr h)
      have hφu : φ e.u < fuel := Nat.lt_of_lt_of_le (hinv.phi_lt hun) hfuel
      have hφv : φ e.v < fuel := Nat.lt_of_lt_of_le (hinv.phi_lt hvn) hfuel
      obtain ⟨p1, hf1, huf1⟩ := find_spec fuel s.parent e.u hinv.uf hun hφu
      obtain ⟨p2, hf2, huf2⟩ := find_spec fuel p1 e.v huf1 hvn hφv
      rw [hf1]; simp only
      rw [hf2]; simp only
      have hinv1 : ScanInv n ⟨s.degree, p2, s.selected⟩ cs rt φ :=
        { hinv with uf := huf2 }
      by_cases hsame : rt e.u = rt e.v
      · have hc : rt e.u = rt e.v ∧ s.selected.length < n - 1 := ⟨hsame, by omega⟩
        rw [if_pos hc]
        have hall' : ∀ a b, a < b → b < n →
            Settled ⟨s.degree, p2, s.selected⟩ rt a b ∨ ∃ e' ∈ es, e'.u = a ∧ e'.v = b := by
          intro a b hab hb
          rcases hall a b hab hb with h | ⟨e', he', h1, h2⟩
          · exact Or.inl h
          · rcases List.mem_cons.mp he' with rfl | he'
            · left
              rw [← h1, ← h2]
              exact Or.inr (Or.inr hsame)
            · exact Or.inr ⟨e', he', h1, h2⟩
        obtain ⟨s', c, rt', φ', l, h1, h2, h3, h4, h5⟩ :=
          ih _ cs rt φ hinv1 hlen hes' hall' hedges hnc
        exact ⟨s', c, rt', φ', l, h1, h2, h3, h4, by
          rw [List.map_cons]; exact List.Sublist.cons _ h5⟩
      · have hc : ¬ (rt e.u = rt e.v ∧ s.selected.length < n - 1) := fun h => hsame h.1
        rw [if_neg hc]
        obtain ⟨p3, hun3, huf3⟩ := unite_spec huf2 hun hvn hφu hφv hsame
        rw [hun3]; simp only
        obtain ⟨A, hA, huA⟩ := hinv1.exists_chain hun
        obtain ⟨B, hB, hvB⟩ := hinv1.exists_chain hvn
        have hvA : e.v ∉ A := fun h =>
          hsame ((hinv1.classes A hA e.u huA e.v hvn).mpr h).symm
        have hBA : B ≠ A := fun h => hvA (h ▸ hvB)
        obtain ⟨cs1, hp1⟩ := exists_perm_cons hA
        have hB' : B ∈ cs1 := by
          rcases List.mem_cons.mp (hp1.mem_iff.mp hB) with h | h
          · exact absurd h hBA
          · exact h
        obtain ⟨rest, hp2⟩ := exists_perm_cons hB'
        have hp : cs.Perm (A :: B :: rest) := hp1.trans (List.Perm.cons A hp2)
        obtain ⟨C, hinv3⟩ := (hinv1.perm hp).accept huA hvB hdu hdv huf3
        have huv : e.u ≠ e.v := Nat.ne_of_lt hue
        have hnc' : NoCycle (s.selected ++ [(e.u, e.v)]) :=
          noCycle_snoc hnc (fun hj => hsame (rt_eq_of_joined hedges hj))
        by_cases hfin : (s.selected ++ [(e.u, e.v)]).length = n - 1
        · rw [if_pos hfin]
          have hcount := hinv3.count
          simp only [List.length_append, List.length_cons, List.length_nil] at hcount hfin
          have hrest : rest.length = 0 := by omega
          rw [List.length_eq_zero] at hrest
          rw [hrest] at hinv3
          refine ⟨_, C, _, _, [(e.u, e.v)], rfl, hinv3, hnc', rfl, ?_⟩
          rw [List.map_cons]
          exact List.Sublist.cons₂ _ (List.nil_sublist _)
        · rw [if_neg hfin]
          have hall' : ∀ a b, a < b → b < n →
              Settled ⟨(s.degree.set e.u (s.degree.getD e.u 0 + 1)).set e.v
                  ((s.degree.set e.u (s.degree.getD e.u 0 + 1)).getD e.v 0 + 1),
                p3, s.selected ++ [(e.u, e.v)]⟩ (rtLink rt (rt e.u) (rt e.v)) a b ∨
              ∃ e' ∈ es, e'.u = a ∧ e'.v = b := by
            intro a b hab hb
            rcases hall a b hab hb with h | ⟨e', he', h1, h2⟩
            · left
              exact settled_after_accept hinv.deg_len hun hvn huv hdu hdv h
            · rcases List.mem_cons.mp he' with rfl | he'
              · left
                rw [← h1, ← h2]
                right; right
                unfold rtLink
                rw [if_pos rfl, if_neg hsame]
              · exact Or.inr ⟨e', he', h1, h2⟩
          have hlen' : (s.selected ++ [(e.u, e.v)]).length + 1 < n := by
            simp only [List.length_append, List.length_cons, List.length_nil] at hfin ⊢
            omega
          obtain ⟨s', c, rt', φ', l, h1, h2, h3, h4, h5⟩ :=
            ih _ _ _ _ hinv3 hlen' hes' hall' (rtLink_edges hedges) hnc'
          refine ⟨s', c, rt', φ', (e.u, e.v) :: l, h1, h2, h3, ?_, ?_⟩
          · rw [h4]; simp
          · rw [List.map_cons]
            exact List.Sublist.cons₂ _ h5

/-- With one chain left and `n ≥ 2`, the nodes of degree 1 are the two ends of
the chain. -/
theorem endpoints_spec {n : Nat} {s : ScanState} {c : List Nat} {rt φ : Nat → Nat}
    (hinv : ScanInv n s [c] rt φ) (hn : 2 ≤ n) :
    ∃ h l, h ≠ l ∧ c.head? = some h ∧ c.getLast? = some l ∧
      (endpoints n s.degree).Perm [h, l] := by
  have hflat : c.Perm (List.range n) := by
    have := hinv.flat
    simpa using this
  have hnd : c.Nodup := hflat.nodup_iff.mpr (List.nodup_range n)
  have hlen : c.length = n := by rw [hflat.length_eq, List.length_range]
  have hmem : ∀ x, x ∈ c ↔ x < n := fun x => by rw [hflat.mem_iff, List.mem_range]
  match c, hlen, hinv, hflat, hnd, hmem with
  | [], hlen, _, _, _, _ => simp at hlen; omega
  | [a], hlen, _, _, _, _ => simp at hlen; omega
  | h :: z :: q, hlen, hinv, hflat, hnd, hmem =>
    obtain ⟨l, hl, _⟩ := nbM_cycEdges_head hnd
    have hl' : (h :: z :: q).getLast? = some l := by
      rw [List.getLast?_cons_cons]; exact hl
    have hlmem : l ∈ z :: q := List.mem_of_getLast?_eq_some hl
    have hhl : h ≠ l := fun e => (List.nodup_cons.mp hnd).1 (e ▸ hlmem)
    have hlen2 : 2 ≤ (h :: z :: q).length := by simp
    have hends : ∀ x, x ∈ endpoints n s.degree ↔ x ∈ [h, l] := by
      intro x
      unfold endpoints
      rw [List.mem_filter, List.mem_range, decide_eq_true_eq]
      constructor
      · rintro ⟨hx, hdeg⟩
        have hxc := (hmem x).mpr hx
        rw [hinv.degree_eq_chain hxc, degree_one_iff hnd hlen2 hxc] at hdeg
        rcases hdeg with hdeg | hdeg
        · simp only [List.head?_cons, Option.some.injEq] at hdeg
          simp [hdeg]
        · rw [hl', Option.some.injEq] at hdeg
          simp [hdeg]
      · intro hx
        simp only [List.mem_cons, List.mem_singleton, List.not_mem_nil, or_false] at hx
        have hxc : x ∈ h :: z :: q := by
          rcases hx with rfl | rfl
          · exact List.mem_cons_self _ _
          · exact List.mem_cons_of_mem _ hlmem
        refine ⟨(hmem x).mp hxc, ?_⟩
        rw [hinv.degree_eq_chain hxc, degree_one_iff hnd hlen2 hxc]
        rcases hx with rfl | rfl
        · left; rfl
        · right; exact hl'
    have hendsnd : (endpoints n s.degree).Nodup := (List.nodup_range n).filter _
    have hpairnd : [h, l].Nodup := by simp [hhl]
    exact ⟨h, l, hhl, rfl, hl', (List.perm_ext_iff_of_nodup hendsnd hpairnd).mpr hends⟩

end ScanPath

/-! ## The scan starts with the first edge of the list -/

section ScanOrder

variable {α : Type}

end ScanOrder

/-! ## The claims -/

section ConstructionClaims

variable {α : Type} [LinearOrder α]

/-- C1 (validity of construction): for every `n ≥ 2` and every `n × n` symmetric
non-negative cost matrix, `greedyInitialization` terminates (any fuel `≥ n` is
enough for each of its loops) and leaves a tour of length `n + 1` whose first `n`
elements are a permutation of `0, …, n - 1` and whose last element equals its
first element. -/
theorem greedyInitialization_valid [Zero α] (sortEdges : List (Edge α) → List (Edge α))
    (hE : IsStdSort (fun a b : Edge α => a.w < b.w) sortEdges)
    (inst : TSPInstance α) (hn : 2 ≤ inst.n)
    (_hsym : ∀ i j, inst.cost i j = inst.cost j i) (_hnonneg : ∀ i j, 0 ≤ inst.cost i j)
    (fuel : Nat) (hfuel : inst.n ≤ fuel) :
    ∃ t, greedyInitialization sortEdges inst fuel = some t ∧
      t.length = inst.n + 1 ∧ (t.take inst.n).Perm (List.range inst.n) ∧
      t.getLast? = t.head? := by
  obtain ⟨t, ht, hv, _⟩ := greedy_spec sortEdges (fun l => (hE l).1) inst hn fuel hfuel
  exact ⟨t, ht, hv⟩

theorem greedyInitialization_valid_witness :
    IsStdSort (fun a b : Edge ℤ => a.w < b.w) stableSortEdges ∧
    2 ≤ (squareInstance (14 : ℤ)).n ∧
    (∀ i j, (squareInstance (14 : ℤ)).cost i j = (squareInstance (14 : ℤ)).cost j i) ∧
    (∀ i j, 0 ≤ (squareInstance (14 : ℤ)).cost i j) ∧
    (squareInstance (14 : ℤ)).n ≤ 4 ∧
    ∃ t, greedyInitialization stableSortEdges (squareInstance (14 : ℤ)) 4 = some t ∧
      t.length = (squareInstance (14 : ℤ)).n + 1 ∧
      (t.take (squareInstance (14 : ℤ)).n).Perm (List.range (squareInstance (14 : ℤ)).n) ∧
      t.getLast? = t.head? :=
  have hsym : ∀ i j, (squareInstance (14 : ℤ)).cost i j = (squareInstance (14 : ℤ)).cost j i := by
    intro i j
    simp only [squareInstance, eq_comm, or_comm]
  have hnonneg : ∀ i j, 0 ≤ (squareInstance (14 : ℤ)).cost i j := by
    intro i j
    simp only [squareInstance]
    split_ifs <;> decide
  ⟨stableSortEdges_isStdSort, by decide, hsym, hnonneg, by decide,
    greedyInitialization_valid stableSortEdges stableSortEdges_isStdSort
      (squareInstance (14 : ℤ)) (by decide) hsym hnonneg 4 (by decide)⟩

/-- C11 (the greedy scan always ends in a Hamiltonian path): for every `n ≥ 2`,
every `n × n` cost matrix and every outcome of the sort, the main scan of
`greedyInitialization` returns with exactly `n - 1` accepted edges, taken from
the sorted list in its order (the list is never exhausted with fewer edges);
`degree` holds the degree of every node in the accepted edges and is at most 2;
the accepted edges contain no cycle and are the edges of a path through all the
nodes; exactly two nodes have degree 1, so that `endpoints[0]` and `endpoints[1]`
are in range and the rest of the construction returns a tour. -/
theorem scan_ends_in_hamiltonian_path (sortEdges : List (Edge α) → List (Edge α))
    (hE : IsStdSort (fun a b : Edge α => a.w < b.w) sortEdges)
    (inst : TSPInstance α) (hn : 2 ≤ inst.n) (fuel : Nat) (hfuel : inst.n ≤ fuel) :
    ∃ s, scan fuel inst.n ⟨List.replicate inst.n 0, List.range inst.n, []⟩
        (sortEdges (allEdges inst)) = some s ∧
      s.selected.length = inst.n - 1 ∧
      s.selected.Sublist ((sortEdges (allEdges inst)).map fun e => (e.u, e.v)) ∧
      (∀ x, s.degree.getD x 0 = (nbrs s.selected x).length) ∧
      (∀ x, s.degree.getD x 0 ≤ 2) ∧
      NoCycle s.selected ∧
      (∃ c, c.Perm (List.range inst.n) ∧ ∀ x, nbM s.selected x = nbM (pathEdges c) x) ∧
      (endpoints inst.n s.degree).length = 2 ∧
      (∃ e0 e1, (endpoints inst.n s.degree)[0]? = some e0 ∧
        (endpoints inst.n s.degree)[1]? = some e1 ∧ e0 ≠ e1) ∧
      ∃ t, closeTour inst.n fuel s = some t := by
  have hes : ∀ e ∈ sortEdges (allEdges inst), e.u < e.v ∧ e.v < inst.n := by
    intro e he
    have := mem_allEdges.mp ((hE _).1.mem_iff.mp he)
    exact ⟨this.1, this.2.1⟩
  have hall : ∀ a b, a < b → b < inst.n →
      Settled ⟨List.replicate inst.n 0, List.range inst.n, []⟩ id a b ∨
        ∃ e ∈ sortEdges (allEdges inst), e.u = a ∧ e.v = b := by
    intro a b hab hb
    right
    refine ⟨⟨a, b, inst.cost a b⟩, ?_, rfl, rfl⟩
    exact (hE _).1.mem_iff.mpr (mem_allEdges.mpr ⟨hab, hb, rfl⟩)
  obtain ⟨s, c, rt, φ, l, hscan, hinv, hnc, hsel, hsub⟩ :=
    scan_path_spec hfuel (sortEdges (allEdges inst)) _ _ _ _ (scanInv_init inst.n)
      (by simp only [List.length_nil]; omega) hes hall
      (fun e he => absurd he (List.not_mem_nil e)) noCycle_nil
  simp only [List.nil_append] at hsel
  obtain ⟨h, l', hhl, _, _, hperm⟩ := endpoints_spec hinv hn
  obtain ⟨t, ht, _, _⟩ := closeTour_spec hinv hn hfuel
  refine ⟨s, hscan, ?_, ?_, hinv.deg, hinv.deg_le, hnc, ⟨c, ?_, ?_⟩, ?_, ?_, t, ht⟩
  · have := hinv.count
    simp only [List.length_singleton] at this
    omega
  · rw [hsel]; exact hsub
  · have := hinv.flat
    simpa using this
  · intro x
    rw [hinv.adjm, List.flatMap_cons, List.flatMap_nil, List.append_nil]
  · rw [hperm.length_eq]; rfl
  · rcases perm_pair hperm with he | he
    · exact ⟨h, l', by rw [he]; rfl, by rw [he]; rfl, hhl⟩
    · exact ⟨l', h, by rw [he]; rfl, by rw [he]; rfl, hhl.symm⟩

theorem scan_ends_in_hamiltonian_path_witness :
    IsStdSort (fun a b : Edge ℤ => a.w < b.w) stableSortEdges ∧
    2 ≤ (squareInstance (14 : ℤ)).n ∧ (squareInstance (14 : ℤ)).n ≤ 4 ∧
    ∃ s, scan 4 (squareInstance (14 : ℤ)).n
        ⟨List.replicate (squareInstance (14 : ℤ)).n 0,
          List.range (squareInstance (14 : ℤ)).n, []⟩
        (stableSortEdges (allEdges (squareInstance (14 : ℤ)))) = some s ∧
      s.selected.length = (squareInstance (14 : ℤ)).n - 1 ∧
      s.selected.Sublist
        ((stableSortEdges (allEdges (squareInstance (14 : ℤ)))).map fun e => (e.u, e.v)) ∧
      (∀ x, s.degree.getD x 0 = (nbrs s.selected x).length) ∧
      (∀ x, s.degree.getD x 0 ≤ 2) ∧
      NoCycle s.selected ∧
      (∃ c, c.Perm (List.range (squareInstance (14 : ℤ)).n) ∧
        ∀ x, nbM s.selected x = nbM (pathEdges c) x) ∧
      (endpoints (squareInstance (14 : ℤ)).n s.degree).length = 2 ∧
      (∃ e0 e1, (endpoints (squareInstance (14 : ℤ)).n s.degree)[0]? = some e0 ∧
        (endpoints (squareInstance (14 : ℤ)).n s.degree)[1]? = some e1 ∧ e0 ≠ e1) ∧
      ∃ t, closeTour (squareInstance (14 : ℤ)).n 4 s = some t :=
  ⟨stableSortEdges_isStdSort, by decide, by decide,
    scan_ends_in_hamiltonian_path stableSortEdges stableSortEdges_isStdSort
      (squareInstance (14 : ℤ)) (by decide) 4 (by decide)⟩

end ConstructionClaims

section Claims

variable {α : Type} [LinearOrder α] [Add α] [Zero α]

/-- C2 (strict improvement): for every instance and every tour `T` of length
`n + 1`, if one pass of `twoOptLongEdgeFirst` returns `true`, the total length
of the tour it leaves is strictly less than the total length of `T`. -/
theorem twoOpt_strict_improvement (sortCuts : List (Cut α) → List (Cut α))
    (inst : TSPInstance α) (T : List Nat) (_hlen : T.length = inst.n + 1)
    (h : (twoOptLongEdgeFirst sortCuts inst T).1 = true) :
    tourLength inst (twoOptLongEdgeFirst sortCuts inst T).2 < tourLength inst T := by
  obtain ⟨c, _, j, _, _, h3, h4⟩ := twoOpt_true h
  rw [h3]; exact h4

theorem twoOpt_strict_improvement_witness :
    ([0, 1, 2, 3, 0] : List Nat).length = (crossedInstance (15 : ℤ)).n + 1 ∧
    (twoOptLongEdgeFirst stableSortCuts (crossedInstance (15 : ℤ)) [0, 1, 2, 3, 0]).1 = true ∧
    tourLength (crossedInstance (15 : ℤ))
        (twoOptLongEdgeFirst stableSortCuts (crossedInstance (15 : ℤ)) [0, 1, 2, 3, 0]).2
      < tourLength (crossedInstance (15 : ℤ)) [0, 1, 2, 3, 0] :=
  ⟨by decide, by decide,
    twoOpt_strict_improvement stableSortCuts (crossedInstance (15 : ℤ)) [0, 1, 2, 3, 0]
      (by decide) (by decide)⟩

/-- C3, as stated, fails when "total length" is the exact sum of the costs.  On
`roundingInstance` (costs 1, 2 and `2 ^ 53`, all of them doubles) and the closed
tour `[0,1,2,3,0]` the pass returns `false`, whatever the sort does: the lengths it
compares are the rounded sums that `tourLength` computes, `2 ^ 53 + 4` for the tour
and `2 ^ 53 + 4` for the reversal of `T[2..3]`.  The exact sums are `2 ^ 53 + 5` for
the tour and `2 ^ 53 + 4` for the reversal, which is strictly shorter. -/
theorem local_optimum_exact_counterexample :
    2 ≤ roundingInstance.n ∧
    ([0, 1, 2, 3, 0] : List Nat).length = roundingInstance.n + 1 ∧
    ([0, 1, 2, 3, 0] : List Nat).getLast? = ([0, 1, 2, 3, 0] : List Nat).head? ∧
    (∀ sortCuts : List (Cut Double) → List (Cut Double),
      IsStdSort (fun a b : Cut Double => a.length > b.length) sortCuts →
      twoOptLongEdgeFirst sortCuts roundingInstance [0, 1, 2, 3, 0]
        = (false, [0, 1, 2, 3, 0])) ∧
    (1 ≤ 2 ∧ 2 < 3 ∧ 3 ≤ roundingInstance.n - 1) ∧
    reverseSegment [0, 1, 2, 3, 0] 2 3 = [0, 1, 3, 2, 0] ∧
    (tourLength roundingInstance [0, 1, 2, 3, 0]).val = 2 ^ 53 + 4 ∧
    (tourLength roundingInstance [0, 1, 3, 2, 0]).val = 2 ^ 53 + 4 ∧
    tourLength (exactCosts roundingInstance) [0, 1, 2, 3, 0] = 2 ^ 53 + 5 ∧
    tourLength (exactCosts roundingInstance) [0, 1, 3, 2, 0] = 2 ^ 53 + 4 ∧
    ¬ (∀ i j, 1 ≤ i → i < j → j ≤ roundingInstance.n - 1 →
        tourLength (exactCosts roundingInstance) [0, 1, 2, 3, 0] ≤
          tourLength (exactCosts roundingInstance) (reverseSegment [0, 1, 2, 3, 0] i j)) := by
  refine ⟨by decide, by decide, by decide, fun sortCuts hsort => ?_, by decide, by decide,
    by decide, by decide, by decide, by decide, fun h => ?_⟩
  · apply twoOpt_eq_of_no_improvement
    intro c hc j hcj hj
    have hc' := mem_buildCuts ((hsort _).1.mem_iff.mp hc)
    have hn : roundingInstance.n = 4 := rfl
    rw [hn] at hj hc'
    have hcases : (c.i = 1 ∧ j = 2) ∨ (c.i = 1 ∧ j = 3) ∨ (c.i = 2 ∧ j = 3) := by omega
    rcases hcases with ⟨h1, rfl⟩ | ⟨h1, rfl⟩ | ⟨h1, rfl⟩ <;> rw [h1] <;> decide
  · exact absurd (h 2 3 (by decide) (by decide) (by decide)) (by decide)

/-- C3, amended: for every instance with `n ≥ 2` and every closed tour `T` of
length `n + 1`, if `twoOptLongEdgeFirst` returns `false`, then for every pair of
positions `1 ≤ i < j ≤ n - 1` the length that `tourLength` computes for the tour
obtained by reversing `T[i..j]` (the costs added from left to right in the
arithmetic of the costs, of which nothing is assumed) is not less than the length
it computes for `T`. -/
theorem twoOpt_false_local_optimum (sortCuts : List (Cut α) → List (Cut α))
    (hsort : IsStdSort (fun a b : Cut α => a.length > b.length) sortCuts)
    (inst : TSPInstance α) (_hn : 2 ≤ inst.n) (T : List Nat)
    (_hlen : T.length = inst.n + 1) (_hclosed : T.getLast? = T.head?)
    (h : (twoOptLongEdgeFirst sortCuts inst T).1 = false) :
    ∀ i j, 1 ≤ i → i < j → j ≤ inst.n - 1 →
      tourLength inst T ≤ tourLength inst (reverseSegment T i j) := by
  intro i j hi hij hj
  have hmem : (⟨i, inst.cost (T.getD (i - 1) 0) (T.getD i 0)⟩ : Cut α) ∈
      sortCuts (buildCuts inst T) :=
    (hsort _).1.mem_iff.mpr (buildCuts_mem hi (by omega))
  exact not_lt.mp ((twoOpt_false h).2 _ hmem j hij (by omega))

theorem twoOpt_false_local_optimum_witness :
    IsStdSort (fun a b : Cut Double => a.length > b.length) stableSortCuts ∧
    2 ≤ roundingInstance.n ∧
    ([0, 1, 2, 3, 0] : List Nat).length = roundingInstance.n + 1 ∧
    ([0, 1, 2, 3, 0] : List Nat).getLast? = ([0, 1, 2, 3, 0] : List Nat).head? ∧
    (twoOptLongEdgeFirst stableSortCuts roundingInstance [0, 1, 2, 3, 0]).1 = false ∧
    ∀ i j, 1 ≤ i → i < j → j ≤ roundingInstance.n - 1 →
      tourLength roundingInstance [0, 1, 2, 3, 0] ≤
        tourLength roundingInstance (reverseSegment [0, 1, 2, 3, 0] i j) :=
  ⟨stableSortCuts_isStdSort, by decide, by decide, by decide, by decide,
    twoOpt_false_local_optimum stableSortCuts stableSortCuts_isStdSort
      roundingInstance (by decide) [0, 1, 2, 3, 0] (by decide) (by decide)
      (by decide)⟩

/-- C4, as stated, fails when "strictly shorter" is said of the exact sums of the
costs.  On `mirrorInstance` (costs 1 and `2 ^ 53`, all of them doubles) the closed
tour `[0,1,2,3,0]` is a 2-opt local optimum: no reversal has a smaller exact sum
than the tour, `2 ^ 53 + 3`.  Yet the pass returns `true`, whatever the sort does,
and leaves the mirror image `[0,3,2,1,0]`: its costs are those of the tour in the
opposite order, and added from left to right they round to `2 ^ 53`, where those
of the tour round to `2 ^ 53 + 4`. -/
theorem idempotence_exact_counterexample :
    ([0, 1, 2, 3, 0] : List Nat).length = mirrorInstance.n + 1 ∧
    ([0, 1, 2, 3, 0] : List Nat).getLast? = ([0, 1, 2, 3, 0] : List Nat).head? ∧
    (∀ i j, 1 ≤ i → i < j → j ≤ mirrorInstance.n - 1 →
      ¬ tourLength (exactCosts mirrorInstance) (reverseSegment [0, 1, 2, 3, 0] i j)
        < tourLength (exactCosts mirrorInstance) [0, 1, 2, 3, 0]) ∧
    (∀ sortCuts : List (Cut Double) → List (Cut Double),
      IsStdSort (fun a b : Cut Double => a.length > b.length) sortCuts →
      (twoOptLongEdgeFirst sortCuts mirrorInstance [0, 1, 2, 3, 0]).1 = true) ∧
    twoOptLongEdgeFirst stableSortCuts mirrorInstance [0, 1, 2, 3, 0]
      = (true, [0, 3, 2, 1, 0]) ∧
    reverseSegment [0, 1, 2, 3, 0] 1 3 = [0, 3, 2, 1, 0] ∧
    (tourLength mirrorInstance [0, 1, 2, 3, 0]).val = 2 ^ 53 + 4 ∧
    (tourLength mirrorInstance [0, 3, 2, 1, 0]).val = 2 ^ 53 ∧
    tourLength (exactCosts mirrorInstance) [0, 1, 2, 3, 0] = 2 ^ 53 + 3 ∧
    tourLength (exactCosts mirrorInstance) [0, 3, 2, 1, 0] = 2 ^ 53 + 3 := by
  refine ⟨by decide, by decide, fun i j hi hij hj => ?_, fun sortCuts hsort => ?_, by decide,
    by decide, by decide, by decide, by decide, by decide⟩
  · have hj3 : j ≤ 3 := hj
    have hcases : (i = 1 ∧ j = 2) ∨ (i = 1 ∧ j = 3) ∨ (i = 2 ∧ j = 3) := by omega
    rcases hcases with ⟨rfl, rfl⟩ | ⟨rfl, rfl⟩ | ⟨rfl, rfl⟩ <;> decide
  · cases hb : (twoOptLongEdgeFirst sortCuts mirrorInstance [0, 1, 2, 3, 0]).1 with
    | true => rfl
    | false =>
      exfalso
      have hmem : (⟨1, mirrorInstance.cost (([0, 1, 2, 3, 0] : List Nat).getD (1 - 1) 0)
          (([0, 1, 2, 3, 0] : List Nat).getD 1 0)⟩ : Cut Double) ∈
          sortCuts (buildCuts mirrorInstance [0, 1, 2, 3, 0]) :=
        (hsort _).1.mem_iff.mpr (buildCuts_mem (by decide) (by decide))
      exact (twoOpt_false hb).2 _ hmem 3 (by decide) (by decide) (by decide)

/-- C4, amended: for every instance and every closed tour `T` of length `n + 1`
such that no reversal of a segment `T[i..j]`, `1 ≤ i < j ≤ n - 1`, has a computed
length (the value of `tourLength`: the costs added from left to right in the
arithmetic of the costs, of which nothing is assumed) strictly less than the
computed length of `T`, `twoOptLongEdgeFirst` returns `false` and leaves the tour
equal to `T`; applying it again gives the same result. -/
theorem twoOpt_idempotent_at_fixpoint (sortCuts : List (Cut α) → List (Cut α))
    (hsort : IsStdSort (fun a b : Cut α => a.length > b.length) sortCuts)
    (inst : TSPInstance α) (T : List Nat)
    (_hlen : T.length = inst.n + 1) (_hclosed : T.getLast? = T.head?)
    (hopt : ∀ i j, 1 ≤ i → i < j → j ≤ inst.n - 1 →
      ¬ tourLength inst (reverseSegment T i j) < tourLength inst T) :
    twoOptLongEdgeFirst sortCuts inst T = (false, T) ∧
    twoOptLongEdgeFirst sortCuts inst (twoOptLongEdgeFirst sortCuts inst T).2 = (false, T) := by
  have h1 : twoOptLongEdgeFirst sortCuts inst T = (false, T) := by
    apply twoOpt_eq_of_no_improvement
    intro c hc j hcj hj
    have hc' := mem_buildCuts ((hsort _).1.mem_iff.mp hc)
    exact hopt c.i j hc'.1 hcj (by omega)
  refine ⟨h1, ?_⟩
  rw [h1]; exact h1

theorem twoOpt_idempotent_at_fixpoint_witness :
    IsStdSort (fun a b : Cut Double => a.length > b.length) stableSortCuts ∧
    ([0, 1, 2, 3, 0] : List Nat).length = roundingInstance.n + 1 ∧
    ([0, 1, 2, 3, 0] : List Nat).getLast? = ([0, 1, 2, 3, 0] : List Nat).head? ∧
    (∀ i j, 1 ≤ i → i < j → j ≤ roundingInstance.n - 1 →
      ¬ tourLength roundingInstance (reverseSegment [0, 1, 2, 3, 0] i j)
        < tourLength roundingInstance [0, 1, 2, 3, 0]) ∧
    twoOptLongEdgeFirst stableSortCuts roundingInstance [0, 1, 2, 3, 0]
      = (false, [0, 1, 2, 3, 0]) ∧
    twoOptLongEdgeFirst stableSortCuts roundingInstance
      (twoOptLongEdgeFirst stableSortCuts roundingInstance [0, 1, 2, 3, 0]).2
      = (false, [0, 1, 2, 3, 0]) :=
  have hopt : ∀ i j, 1 ≤ i → i < j → j ≤ roundingInstance.n - 1 →
      ¬ tourLength roundingInstance (reverseSegment [0, 1, 2, 3, 0] i j)
        < tourLength roundingInstance [0, 1, 2, 3, 0] := by
    intro i j hi hij hj
    have hj3 : j ≤ 3 := hj
    have hcases : (i = 1 ∧ j = 2) ∨ (i = 1 ∧ j = 3) ∨ (i = 2 ∧ j = 3) := by omega
    rcases hcases with ⟨rfl, rfl⟩ | ⟨rfl, rfl⟩ | ⟨rfl, rfl⟩ <;> decide
  ⟨stableSortCuts_isStdSort, by decide, by decide, hopt,
    twoOpt_idempotent_at_fixpoint stableSortCuts stableSortCuts_isStdSort
      roundingInstance [0, 1, 2, 3, 0] (by decide) (by decide) hopt⟩

/-- C5 (tour validity is an invariant of refinement): if the tour before a pass
of `twoOptLongEdgeFirst` is a valid closed tour of an `n`-node instance, the tour
after the pass, whether it returns `true` or `false`, is again a valid closed
tour, with the same first and last element. -/
theorem twoOpt_preserves_validTour (sortCuts : List (Cut α) → List (Cut α))
    (hsort : IsStdSort (fun a b : Cut α => a.length > b.length) sortCuts)
    (inst : TSPInstance α) (T : List Nat) (hT : ValidTour inst.n T) :
    ValidTour inst.n (twoOptLongEdgeFirst sortCuts inst T).2 ∧
    (twoOptLongEdgeFirst sortCuts inst T).2.head? = T.head? ∧
    (twoOptLongEdgeFirst sortCuts inst T).2.getLast? = T.getLast? :=
  twoOpt_validTour (fun l => (hsort l).1) hT

theorem twoOpt_preserves_validTour_witness :
    IsStdSort (fun a b : Cut ℤ => a.length > b.length) stableSortCuts ∧
    ValidTour (crossedInstance (15 : ℤ)).n [0, 1, 2, 3, 0] ∧
    ValidTour (crossedInstance (15 : ℤ)).n
      (twoOptLongEdgeFirst stableSortCuts (crossedInstance (15 : ℤ)) [0, 1, 2, 3, 0]).2 ∧
    (twoOptLongEdgeFirst stableSortCuts (crossedInstance (15 : ℤ)) [0, 1, 2, 3, 0]).2.head?
      = ([0, 1, 2, 3, 0] : List Nat).head? ∧
    (twoOptLongEdgeFirst stableSortCuts (crossedInstance (15 : ℤ)) [0, 1, 2, 3, 0]).2.getLast?
      = ([0, 1, 2, 3, 0] : List Nat).getLast? :=
  ⟨stableSortCuts_isStdSort, by decide,
    twoOpt_preserves_validTour stableSortCuts stableSortCuts_isStdSort
      (crossedInstance (15 : ℤ)) [0, 1, 2, 3, 0] (by decide)⟩

/-- C6 (termination of `solve`): for every instance with `n ≥ 2` the loop of
`solve` that repeats `twoOptLongEdgeFirst` while it returns `true` performs only
finitely many rounds: each accepted round strictly decreases the tour length and
the tour ranges over the finite set of valid tours, so that more than `n!` units
of fuel (one per call of `twoOptLongEdgeFirst`) always let `solve` return; the
tour it returns is valid and a further pass returns `false` on it. -/
theorem solve_terminates (sortEdges : List (Edge α) → List (Edge α))
    (hE : IsStdSort (fun a b : Edge α => a.w < b.w) sortEdges)
    (sortCuts : List (Cut α) → List (Cut α))
    (hC : IsStdSort (fun a b : Cut α => a.length > b.length) sortCuts)
    (inst : TSPInstance α) (hn : 2 ≤ inst.n) (fuel : Nat)
    (hfuel : inst.n.factorial < fuel) :
    ∃ r, solve sortEdges sortCuts inst fuel = some r ∧ ValidTour inst.n (getTour r) ∧
      twoOptLongEdgeFirst sortCuts inst (getTour r) = (false, getTour r) := by
  obtain ⟨r, h1, h2, _, h4⟩ :=
    solve_spec sortEdges (fun l => (hE l).1) sortCuts (fun l => (hC l).1) inst hn fuel hfuel
  exact ⟨r, h1, h2, h4⟩

theorem solve_terminates_witness :
    IsStdSort (fun a b : Edge ℤ => a.w < b.w) stableSortEdges ∧
    IsStdSort (fun a b : Cut ℤ => a.length > b.length) stableSortCuts ∧
    2 ≤ (crossedInstance (15 : ℤ)).n ∧ (crossedInstance (15 : ℤ)).n.factorial < 25 ∧
    ∃ r, solve stableSortEdges stableSortCuts (crossedInstance (15 : ℤ)) 25 = some r ∧
      ValidTour (crossedInstance (15 : ℤ)).n (getTour r) ∧
      twoOptLongEdgeFirst stableSortCuts (crossedInstance (15 : ℤ)) (getTour r)
        = (false, getTour r) :=
  ⟨stableSortEdges_isStdSort, stableSortCuts_isStdSort, by decide, by decide,
    solve_terminates stableSortEdges stableSortEdges_isStdSort stableSortCuts
      stableSortCuts_isStdSort (crossedInstance (15 : ℤ)) (by decide) 25 (by decide)⟩

/-- C7, as stated, fails when "the sum" is the exact sum of the costs.  On
`triangleInstance` (costs 1, 1 and `2 ^ 53`, all of them doubles) `solve` returns the
tour `[0,1,2,0]` with the objective value `2 ^ 53`: `tourLength` adds 1, `2 ^ 53` and 1
from left to right, and both `1 + 2 ^ 53` and `2 ^ 53 + 1` round to `2 ^ 53`.  The sum
of the three costs is `2 ^ 53 + 2`, which is a double itself. -/
theorem objValue_exact_sum_counterexample :
    solve stableSortEdges stableSortCuts triangleInstance 3
      = some ⟨[0, 1, 2, 0], ⟨2 ^ 53⟩⟩ ∧
    (getObjValue (⟨[0, 1, 2, 0], ⟨2 ^ 53⟩⟩ : TSPHeuristic Double)).val = 2 ^ 53 ∧
    getTour (⟨[0, 1, 2, 0], ⟨2 ^ 53⟩⟩ : TSPHeuristic Double) = [0, 1, 2, 0] ∧
    ((List.range (([0, 1, 2, 0] : List Nat).length - 1)).map fun k =>
      (triangleInstance.cost (([0, 1, 2, 0] : List Nat).getD k 0)
        (([0, 1, 2, 0] : List Nat).getD (k + 1) 0)).val) = [1, 2 ^ 53, 1] ∧
    ([1, 2 ^ 53, 1] : List Nat).sum = 2 ^ 53 + 2 ∧
    tourLength (exactCosts triangleInstance) [0, 1, 2, 0] = 2 ^ 53 + 2 ∧
    ¬ (∀ r : TSPHeuristic Double,
        solve stableSortEdges stableSortCuts triangleInstance 3 = some r →
        (getObjValue r).val =
          ((List.range ((getTour r).length - 1)).map fun k =>
            (triangleInstance.cost ((getTour r).getD k 0)
              ((getTour r).getD (k + 1) 0)).val).sum) := by
  refine ⟨by decide, by decide, by decide, by decide, by decide, by decide, fun h => ?_⟩
  exact absurd (h ⟨[0, 1, 2, 0], ⟨2 ^ 53⟩⟩ (by decide)) (by decide)

/-- C7, amended: after `solve` completes, `getObjValue()` equals the value that
`tourLength` computes on the tour returned by `getTour()`: the costs
`cost[tour[k]][tour[k+1]]` of the consecutive positions `k = 0, 1, …`, the final
edge back to the start included, added one after the other to a running sum that
starts at 0, in the arithmetic of the costs (which need not be exact).  The value
is not stale before `solve` either: a fresh object has the empty tour and the
value 0. -/
theorem solve_objValue_eq_tourLength (sortEdges : List (Edge α) → List (Edge α))
    (sortCuts : List (Cut α) → List (Cut α)) (inst : TSPInstance α) (fuel : Nat)
    (r : TSPHeuristic α) (h : solve sortEdges sortCuts inst fuel = some r) :
    getObjValue r = tourLength inst (getTour r) ∧
    getObjValue r =
      (List.range ((getTour r).length - 1)).foldl
        (fun sum k => sum + inst.cost ((getTour r).getD k 0) ((getTour r).getD (k + 1) 0)) 0 ∧
    getObjValue (TSPHeuristic.init : TSPHeuristic α) =
      tourLength inst (getTour (TSPHeuristic.init : TSPHeuristic α)) := by
  have hr : getObjValue r = tourLength inst (getTour r) := by
    unfold solve at h
    split at h
    · cases h
    · split at h
      · cases h
      · cases h; rfl
  exact ⟨hr, hr.trans (tourLength_eq_foldl inst _), rfl⟩

theorem solve_objValue_eq_tourLength_witness :
    solve stableSortEdges stableSortCuts triangleInstance 3
      = some ⟨[0, 1, 2, 0], ⟨2 ^ 53⟩⟩ ∧
    (getObjValue (⟨[0, 1, 2, 0], ⟨2 ^ 53⟩⟩ : TSPHeuristic Double) =
      tourLength triangleInstance
        (getTour (⟨[0, 1, 2, 0], ⟨2 ^ 53⟩⟩ : TSPHeuristic Double)) ∧
    getObjValue (⟨[0, 1, 2, 0], ⟨2 ^ 53⟩⟩ : TSPHeuristic Double) =
      (List.range ((getTour (⟨[0, 1, 2, 0], ⟨2 ^ 53⟩⟩ : TSPHeuristic Double)).length - 1)).foldl
        (fun sum k => sum + triangleInstance.cost
          ((getTour (⟨[0, 1, 2, 0], ⟨2 ^ 53⟩⟩ : TSPHeuristic Double)).getD k 0)
          ((getTour (⟨[0, 1, 2, 0], ⟨2 ^ 53⟩⟩ : TSPHeuristic Double)).getD (k + 1) 0)) 0 ∧
    getObjValue (TSPHeuristic.init : TSPHeuristic Double) =
      tourLength triangleInstance
        (getTour (TSPHeuristic.init : TSPHeuristic Double))) :=
  have h : solve stableSortEdges stableSortCuts triangleInstance 3
      = some ⟨[0, 1, 2, 0], ⟨2 ^ 53⟩⟩ := by decide
  ⟨h, solve_objValue_eq_tourLength stableSortEdges stableSortCuts
    triangleInstance 3 _ h⟩

/-- C12 (first improvement in the prescribed order): whenever
`twoOptLongEdgeFirst` returns `true` on a tour `T`, the sorted cut list splits as
`pre ++ c :: post`, it is in descending order of the edge lengths
`cost[T[i-1]][T[i]]`, and the tour left is the reversal of `T[c.i..j]` for the
first pair that is strictly shorter than `T`: every cut of `pre` with every `j`,
and the cut `c` with every smaller `j`, gives a candidate that is not strictly
shorter than `T`. -/
theorem twoOpt_first_improvement (sortCuts : List (Cut α) → List (Cut α))
    (hsort : IsStdSort (fun a b : Cut α => a.length > b.length) sortCuts)
    (inst : TSPInstance α) (T : List Nat) (_hlen : T.length = inst.n + 1)
    (h : (twoOptLongEdgeFirst sortCuts inst T).1 = true) :
    ∃ pre c post j,
      sortCuts (buildCuts inst T) = pre ++ c :: post ∧
      (pre ++ c :: post).Pairwise (fun a b => b.length ≤ a.length) ∧
      (∀ c' ∈ pre ++ c :: post, 1 ≤ c'.i ∧ c'.i + 2 ≤ inst.n ∧
        c'.length = inst.cost (T.getD (c'.i - 1) 0) (T.getD c'.i 0)) ∧
      c.i < j ∧ j < inst.n ∧
      (twoOptLongEdgeFirst sortCuts inst T).2 = reverseSegment T c.i j ∧
      tourLength inst (reverseSegment T c.i j) < tourLength inst T ∧
      (∀ c' ∈ pre, ∀ j', c'.i < j' → j' < inst.n →
        ¬ tourLength inst (reverseSegment T c'.i j') < tourLength inst T) ∧
      (∀ j', c.i < j' → j' < j →
        ¬ tourLength inst (reverseSegment T c.i j') < tourLength inst T) := by
  unfold twoOptLongEdgeFirst at h ⊢
  simp only at h ⊢
  split at h
  · next cand hc =>
    obtain ⟨pre, c, post, hl, hcut, hpre⟩ := List.findSome?_eq_some_iff.mp hc
    obtain ⟨j, h1, h2, h3, h4, h5⟩ := tryCut_some_first hcut
    refine ⟨pre, c, post, j, hl, ?_, ?_, h1, h2, ?_, h3 ▸ h4, ?_, h5⟩
    · rw [← hl]
      exact List.Pairwise.imp (fun {a b} hab => not_lt.mp hab) (hsort _).2
    · intro c' hc'
      rw [← hl] at hc'
      have hm := (hsort _).1.mem_iff.mp hc'
      exact ⟨(mem_buildCuts hm).1, (mem_buildCuts hm).2, mem_buildCuts_length hm⟩
    · exact h3
    · intro c' hc' j' hj1 hj2
      exact tryCut_none (hpre c' hc') hj1 hj2
  · cases h

theorem twoOpt_first_improvement_witness :
    IsStdSort (fun a b : Cut ℤ => a.length > b.length) stableSortCuts ∧
    ([0, 1, 2, 3, 0] : List Nat).length = (crossedInstance (15 : ℤ)).n + 1 ∧
    (twoOptLongEdgeFirst stableSortCuts (crossedInstance (15 : ℤ)) [0, 1, 2, 3, 0]).1 = true ∧
    ∃ pre c post j,
      stableSortCuts (buildCuts (crossedInstance (15 : ℤ)) [0, 1, 2, 3, 0])
        = pre ++ c :: post ∧
      (pre ++ c :: post).Pairwise (fun a b => b.length ≤ a.length) ∧
      (∀ c' ∈ pre ++ c :: post, 1 ≤ c'.i ∧ c'.i + 2 ≤ (crossedInstance (15 : ℤ)).n ∧
        c'.length = (crossedInstance (15 : ℤ)).cost
          (([0, 1, 2, 3, 0] : List Nat).getD (c'.i - 1) 0)
          (([0, 1, 2, 3, 0] : List Nat).getD c'.i 0)) ∧
      c.i < j ∧ j < (crossedInstance (15 : ℤ)).n ∧
      (twoOptLongEdgeFirst stableSortCuts (crossedInstance (15 : ℤ)) [0, 1, 2, 3, 0]).2
        = reverseSegment [0, 1, 2, 3, 0] c.i j ∧
      tourLength (crossedInstance (15 : ℤ)) (reverseSegment [0, 1, 2, 3, 0] c.i j)
        < tourLength (crossedInstance (15 : ℤ)) [0, 1, 2, 3, 0] ∧
      (∀ c' ∈ pre, ∀ j', c'.i < j' → j' < (crossedInstance (15 : ℤ)).n →
        ¬ tourLength (crossedInstance (15 : ℤ)) (reverseSegment [0, 1, 2, 3, 0] c'.i j')
          < tourLength (crossedInstance (15 : ℤ)) [0, 1, 2, 3, 0]) ∧
      (∀ j', c.i < j' → j' < j →
        ¬ tourLength (crossedInstance (15 : ℤ)) (reverseSegment [0, 1, 2, 3, 0] c.i j')
          < tourLength (crossedInstance (15 : ℤ)) [0, 1, 2, 3, 0]) :=
  ⟨stableSortCuts_isStdSort, by decide, by decide,
    twoOpt_first_improvement stableSortCuts stableSortCuts_isStdSort
      (crossedInstance (15 : ℤ)) [0, 1, 2, 3, 0] (by decide) (by decide)⟩

/-- C13, as stated, fails: on the 4-node square and the tour `[0,1,2,3,0]`
(`len = 5`) no cut is built for the position `i = 3 = len - 2`, and the inner loop
of the cut `i = 1` does not reach `j = 4 = len - 1`, the end of the tour.  The
difference shows in the result: for `n = 2` and the tour `[0,1,0]` the pair
`(i, j) = (1, 2)` is in the claimed range and its candidate `[0,0,1]` is strictly
shorter, yet no cut is built and the pass returns `false`. -/
theorem cut_range_counterexample :
    ¬ (∀ i, 1 ≤ i → i ≤ ([0, 1, 2, 3, 0] : List Nat).length - 2 →
        ∃ c ∈ buildCuts (squareInstance (14 : ℤ)) [0, 1, 2, 3, 0], c.i = i) ∧
    ¬ (∀ j, 1 < j → j ≤ ([0, 1, 2, 3, 0] : List Nat).length - 1 →
        j ∈ secondCutPositions (squareInstance (14 : ℤ)) 1) ∧
    (1 ≤ 1 ∧ 1 ≤ ([0, 1, 0] : List Nat).length - 2 ∧ 1 < 2 ∧
      2 ≤ ([0, 1, 0] : List Nat).length - 1 ∧
      reverseSegment [0, 1, 0] 1 2 = [0, 0, 1] ∧
      tourLength (⟨2, fun i j => if i = j then 0 else 7⟩ : TSPInstance ℤ)
          (reverseSegment [0, 1, 0] 1 2)
        < tourLength (⟨2, fun i j => if i = j then 0 else 7⟩ : TSPInstance ℤ) [0, 1, 0] ∧
      buildCuts (⟨2, fun i j => if i = j then 0 else 7⟩ : TSPInstance ℤ) [0, 1, 0] = [] ∧
      twoOptLongEdgeFirst stableSortCuts
          (⟨2, fun i j => if i = j then 0 else 7⟩ : TSPInstance ℤ) [0, 1, 0]
        = (false, [0, 1, 0])) := by
  refine ⟨fun h => ?_, fun h => ?_, by decide, by decide, by decide, by decide, by decide,
    by decide, ?_, by decide⟩
  · exact absurd (h 3 (by decide) (by decide)) (by decide)
  · exact absurd (h 4 (by decide) (by decide)) (by decide)
  · rfl

/-- C13, amended: for a tour of length `len = n + 1`, `twoOptLongEdgeFirst` builds
one cut for every position `i` with `1 ≤ i ≤ len - 3` (that is `i ≤ n - 2`), in
increasing order of `i` and paired with the length of the edge
`(tour[i-1], tour[i])`, and for each cut position `i` the inner loop forms, in
increasing order of `j`, the candidate that reverses the segment `[i, j]` for
every `j` with `i < j ≤ len - 2` (that is `j ≤ n - 1`, the last position before
the closing node). -/
theorem cut_range_amended (inst : TSPInstance α) (T : List Nat)
    (hlen : T.length = inst.n + 1) :
    (buildCuts inst T).map (fun c => c.i) = List.range' 1 (T.length - 3) ∧
    (∀ i, (∃ c ∈ buildCuts inst T, c.i = i) ↔ (1 ≤ i ∧ i ≤ T.length - 3)) ∧
    (∀ c ∈ buildCuts inst T,
      c.length = inst.cost (T.getD (c.i - 1) 0) (T.getD c.i 0)) ∧
    (∀ i, secondCutPositions inst i = List.range' (i + 1) (T.length - 2 - i)) ∧
    (∀ i j, j ∈ secondCutPositions inst i ↔ (i < j ∧ j ≤ T.length - 2)) ∧
    (∀ best i, tryCut inst T best i =
      (secondCutPositions inst i).findSome? fun j =>
        if tourLength inst (reverseSegment T i j) < best
        then some (reverseSegment T i j) else none) := by
  have h3 : T.length - 3 = inst.n - 2 := by omega
  refine ⟨?_, ?_, ?_, ?_, ?_, ?_⟩
  · rw [h3]; exact buildCuts_positions inst T
  · intro i
    constructor
    · rintro ⟨c, hc, rfl⟩
      have := mem_buildCuts hc
      omega
    · rintro ⟨h1, h2⟩
      exact ⟨_, buildCuts_mem h1 (by omega), rfl⟩
  · intro c hc
    exact mem_buildCuts_length hc
  · intro i
    unfold secondCutPositions
    congr 1
    omega
  · intro i j
    rw [mem_secondCutPositions]
    omega
  · intro best i
    exact tryCut_eq inst T best i

theorem cut_range_amended_witness :
    ([0, 1, 2, 3, 0] : List Nat).length = (squareInstance (14 : ℤ)).n + 1 ∧
    (buildCuts (squareInstance (14 : ℤ)) [0, 1, 2, 3, 0]).map (fun c => c.i)
      = List.range' 1 (([0, 1, 2, 3, 0] : List Nat).length - 3) ∧
    (∀ i, (∃ c ∈ buildCuts (squareInstance (14 : ℤ)) [0, 1, 2, 3, 0], c.i = i) ↔
      (1 ≤ i ∧ i ≤ ([0, 1, 2, 3, 0] : List Nat).length - 3)) ∧
    (∀ c ∈ buildCuts (squareInstance (14 : ℤ)) [0, 1, 2, 3, 0],
      c.length = (squareInstance (14 : ℤ)).cost
        (([0, 1, 2, 3, 0] : List Nat).getD (c.i - 1) 0)
        (([0, 1, 2, 3, 0] : List Nat).getD c.i 0)) ∧
    (∀ i, secondCutPositions (squareInstance (14 : ℤ)) i
      = List.range' (i + 1) (([0, 1, 2, 3, 0] : List Nat).length - 2 - i)) ∧
    (∀ i j, j ∈ secondCutPositions (squareInstance (14 : ℤ)) i ↔
      (i < j ∧ j ≤ ([0, 1, 2, 3, 0] : List Nat).length - 2)) ∧
    (∀ best i, tryCut (squareInstance (14 : ℤ)) [0, 1, 2, 3, 0] best i =
      (secondCutPositions (squareInstance (14 : ℤ)) i).findSome? fun j =>
        if tourLength (squareInstance (14 : ℤ)) (reverseSegment [0, 1, 2, 3, 0] i j) < best
        then some (reverseSegment [0, 1, 2, 3, 0] i j) else none) :=
  ⟨by decide, cut_range_amended (squareInstance (14 : ℤ)) [0, 1, 2, 3, 0] (by decide)⟩

end Claims

section ScenarioClaims

variable {α : Type} [LinearOrderedCommRing α]

/-- C8 (scenario 1, the square): for the 4-node instance of the corners (0,0),
(10,0), (10,10), (0,10), that is cost 10 on the pairs {0,1}, {1,2}, {2,3}, {0,3}
and the diagonal length `d = √200` on {0,2}, {1,3}, `greedyInitialization` yields
the perimeter cycle `[0,1,2,3,0]` or its reflection `[0,3,2,1,0]`, of total
length 40, and a following pass of `twoOptLongEdgeFirst` returns `false`. -/
theorem square_scenario (d : α) (hd0 : 0 ≤ d) (hd : d * d = 200)
    (sortEdges : List (Edge α) → List (Edge α))
    (hE : IsStdSort (fun a b : Edge α => a.w < b.w) sortEdges)
    (sortCuts : List (Cut α) → List (Cut α))
    (hC : IsStdSort (fun a b : Cut α => a.length > b.length) sortCuts)
    (fuel : Nat) (hfuel : 4 ≤ fuel) :
    ∃ t, greedyInitialization sortEdges (squareInstance d) fuel = some t ∧
      (t = [0, 1, 2, 3, 0] ∨ t = [0, 3, 2, 1, 0]) ∧
      tourLength (squareInstance d) t = 40 ∧
      twoOptLongEdgeFirst sortCuts (squareInstance d) t = (false, t) := by
  have h10 : 10 < d := by linarith [(sqrt200_bounds hd0 hd).1]
  rcases greedy_square d h10 sortEdges hE fuel hfuel with h | h
  · exact ⟨_, h, Or.inl rfl, twoOpt_square d h10 sortCuts hC _ (Or.inl rfl)⟩
  · exact ⟨_, h, Or.inr rfl, twoOpt_square d h10 sortCuts hC _ (Or.inr rfl)⟩

theorem square_scenario_witness :
    (0 : ℝ) ≤ Real.sqrt 200 ∧ Real.sqrt 200 * Real.sqrt 200 = 200 ∧
    IsStdSort (fun a b : Edge ℝ => a.w < b.w) stableSortEdges ∧
    IsStdSort (fun a b : Cut ℝ => a.length > b.length) stableSortCuts ∧ 4 ≤ 4 ∧
    ∃ t, greedyInitialization stableSortEdges (squareInstance (Real.sqrt 200)) 4 = some t ∧
      (t = [0, 1, 2, 3, 0] ∨ t = [0, 3, 2, 1, 0]) ∧
      tourLength (squareInstance (Real.sqrt 200)) t = 40 ∧
      twoOptLongEdgeFirst stableSortCuts (squareInstance (Real.sqrt 200)) t = (false, t) :=
  ⟨Real.sqrt_nonneg 200, Real.mul_self_sqrt (by norm_num), stableSortEdges_isStdSort,
    stableSortCuts_isStdSort, le_refl 4,
    square_scenario (Real.sqrt 200) (Real.sqrt_nonneg 200) (Real.mul_self_sqrt (by norm_num))
      stableSortEdges stableSortEdges_isStdSort stableSortCuts stableSortCuts_isStdSort 4
      (le_refl 4)⟩

/-- C9 (scenario 2, the crossed tour): for the 4-node instance of the points
(0,0), (10,10), (10,0), (0,10), that is cost `d = √200` on {0,1} and {2,3} and
cost 10 on every other pair, and the current tour `[0,1,2,3,0]` of length
`20 + 2√200` (between 48 and 49), one pass of `twoOptLongEdgeFirst` returns `true`
and leaves the tour obtained by reversing the middle segment, `[0,2,1,3,0]`,
whose total length is 40. -/
theorem crossed_scenario (d : α) (hd0 : 0 ≤ d) (hd : d * d = 200)
    (sortCuts : List (Cut α) → List (Cut α))
    (hsort : IsStdSort (fun a b : Cut α => a.length > b.length) sortCuts) :
    tourLength (crossedInstance d) [0, 1, 2, 3, 0] = 20 + 2 * d ∧
    48 < tourLength (crossedInstance d) [0, 1, 2, 3, 0] ∧
    tourLength (crossedInstance d) [0, 1, 2, 3, 0] < 49 ∧
    twoOptLongEdgeFirst sortCuts (crossedInstance d) [0, 1, 2, 3, 0] = (true, [0, 2, 1, 3, 0]) ∧
    reverseSegment [0, 1, 2, 3, 0] 1 2 = [0, 2, 1, 3, 0] ∧
    tourLength (crossedInstance d) [0, 2, 1, 3, 0] = 40 := by
  obtain ⟨h14, h29⟩ := sqrt200_bounds hd0 hd
  have hlen : tourLength (crossedInstance d) [0, 1, 2, 3, 0] = 20 + 2 * d := by
    simp [tourLength, tourLengthFrom, crossedInstance]
    ring
  have l12 : tourLength (crossedInstance d) [0, 2, 1, 3, 0] = 40 := by
    simp [tourLength, tourLengthFrom, crossedInstance]
    norm_num
  refine ⟨hlen, by rw [hlen]; linarith, by rw [hlen]; linarith, ?_, by decide, l12⟩
  have hp := (hsort (buildCuts (crossedInstance d) [0, 1, 2, 3, 0])).1
  rw [buildCuts_crossed] at hp
  have hn : (crossedInstance d).n = 4 := rfl
  have r12 : reverseSegment [0, 1, 2, 3, 0] 1 2 = [0, 2, 1, 3, 0] := by decide
  have r23 : reverseSegment [0, 1, 2, 3, 0] 2 3 = [0, 1, 3, 2, 0] := by decide
  have l23 : tourLength (crossedInstance d) [0, 1, 3, 2, 0] = 20 + 2 * d := by
    simp [tourLength, tourLengthFrom, crossedInstance]
    ring
  have t1 : tryCut (crossedInstance d) [0, 1, 2, 3, 0] (20 + 2 * d) 1
      = some [0, 2, 1, 3, 0] := by
    have : (40 : α) < 20 + 2 * d := by linarith
    simp [tryCut, hn, List.range', List.findSome?, r12, l12, this]
  have t2 : tryCut (crossedInstance d) [0, 1, 2, 3, 0] (20 + 2 * d) 2 = none := by
    simp [tryCut, hn, List.range', List.findSome?, r23, l23]
  unfold twoOptLongEdgeFirst
  rw [buildCuts_crossed, hlen]
  rcases perm_pair hp with h | h
  · rw [h]
    simp [List.findSome?, t1]
  · rw [h]
    simp [List.findSome?, t1, t2]

theorem crossed_scenario_witness :
    (0 : ℝ) ≤ Real.sqrt 200 ∧ Real.sqrt 200 * Real.sqrt 200 = 200 ∧
    IsStdSort (fun a b : Cut ℝ => a.length > b.length) stableSortCuts ∧
    tourLength (crossedInstance (Real.sqrt 200)) [0, 1, 2, 3, 0] = 20 + 2 * Real.sqrt 200 ∧
    48 < tourLength (crossedInstance (Real.sqrt 200)) [0, 1, 2, 3, 0] ∧
    tourLength (crossedInstance (Real.sqrt 200)) [0, 1, 2, 3, 0] < 49 ∧
    twoOptLongEdgeFirst stableSortCuts (crossedInstance (Real.sqrt 200)) [0, 1, 2, 3, 0]
      = (true, [0, 2, 1, 3, 0]) ∧
    reverseSegment [0, 1, 2, 3, 0] 1 2 = [0, 2, 1, 3, 0] ∧
    tourLength (crossedInstance (Real.sqrt 200)) [0, 2, 1, 3, 0] = 40 :=
  ⟨Real.sqrt_nonneg 200, Real.mul_self_sqrt (by norm_num), stableSortCuts_isStdSort,
    crossed_scenario (Real.sqrt 200) (Real.sqrt_nonneg 200)
      (Real.mul_self_sqrt (by norm_num)) stableSortCuts stableSortCuts_isStdSort⟩

/-- C10 (scenario 3, the smallest instance): for every instance with `n = 2` and
symmetric cost, `greedyInitialization` yields exactly the tour `[0,1,0]`, its
total length is `2 × cost[0][1]`, and `twoOptLongEdgeFirst` has no cut, hence no
candidate, to examine: it returns `false` and leaves the tour unchanged. -/
theorem smallest_instance (inst : TSPInstance α) (hn : inst.n = 2)
    (hsym : ∀ i j, inst.cost i j = inst.cost j i)
    (sortEdges : List (Edge α) → List (Edge α))
    (hE : IsStdSort (fun a b : Edge α => a.w < b.w) sortEdges)
    (sortCuts : List (Cut α) → List (Cut α))
    (hC : IsStdSort (fun a b : Cut α => a.length > b.length) sortCuts)
    (fuel : Nat) (hfuel : 2 ≤ fuel) :
    greedyInitialization sortEdges inst fuel = some [0, 1, 0] ∧
    tourLength inst [0, 1, 0] = 2 * inst.cost 0 1 ∧
    sortCuts (buildCuts inst [0, 1, 0]) = [] ∧
    twoOptLongEdgeFirst sortCuts inst [0, 1, 0] = (false, [0, 1, 0]) := by
  obtain ⟨n, cost⟩ := inst
  simp only at hn hsym
  subst hn
  obtain ⟨f, rfl⟩ : ∃ f, fuel = f + 2 := ⟨fuel - 2, by omega⟩
  have hcuts : sortCuts (buildCuts (⟨2, cost⟩ : TSPInstance α) [0, 1, 0]) = [] := by
    have := (hC (buildCuts (⟨2, cost⟩ : TSPInstance α) [0, 1, 0])).1
    have hb : buildCuts (⟨2, cost⟩ : TSPInstance α) [0, 1, 0] = [] := by
      simp [buildCuts]
    rw [hb] at this
    exact List.Perm.eq_nil this
  refine ⟨?_, ?_, hcuts, ?_⟩
  · have hs := (hE (allEdges (⟨2, cost⟩ : TSPInstance α))).1
    rw [allEdges_two] at hs
    have hs' := List.perm_singleton.mp hs
    unfold greedyInitialization
    simp only [allEdges_two, hs']
    simp [scan, find, unite, closeTour, endpoints, buildAdj, addEdge, walk, List.range,
      List.range.loop]
  · simp [tourLength, tourLengthFrom, hsym 1 0]
    ring
  · unfold twoOptLongEdgeFirst
    simp [hcuts]

theorem smallest_instance_witness :
    (⟨2, fun i j => if i = j then 0 else 7⟩ : TSPInstance ℤ).n = 2 ∧
    (∀ i j, (⟨2, fun i j => if i = j then 0 else 7⟩ : TSPInstance ℤ).cost i j =
      (⟨2, fun i j => if i = j then 0 else 7⟩ : TSPInstance ℤ).cost j i) ∧
    IsStdSort (fun a b : Edge ℤ => a.w < b.w) stableSortEdges ∧
    IsStdSort (fun a b : Cut ℤ => a.length > b.length) stableSortCuts ∧ 2 ≤ 2 ∧
    greedyInitialization stableSortEdges
      (⟨2, fun i j => if i = j then 0 else 7⟩ : TSPInstance ℤ) 2 = some [0, 1, 0] ∧
    tourLength (⟨2, fun i j => if i = j then 0 else 7⟩ : TSPInstance ℤ) [0, 1, 0] =
      2 * (⟨2, fun i j => if i = j then 0 else 7⟩ : TSPInstance ℤ).cost 0 1 ∧
    stableSortCuts (buildCuts (⟨2, fun i j => if i = j then 0 else 7⟩ : TSPInstance ℤ)
      [0, 1, 0]) = [] ∧
    twoOptLongEdgeFirst stableSortCuts
      (⟨2, fun i j => if i = j then 0 else 7⟩ : TSPInstance ℤ) [0, 1, 0]
      = (false, [0, 1, 0]) :=
  have hsym : ∀ i j, (⟨2, fun i j => if i = j then 0 else 7⟩ : TSPInstance ℤ).cost i j =
      (⟨2, fun i j => if i = j then 0 else 7⟩ : TSPInstance ℤ).cost j i := by
    intro i j
    simp only [eq_comm]
  ⟨rfl, hsym, stableSortEdges_isStdSort, stableSortCuts_isStdSort, le_refl 2,
    smallest_instance _ rfl hsym stableSortEdges stableSortEdges_isStdSort stableSortCuts
      stableSortCuts_isStdSort 2 (le_refl 2)⟩

end ScenarioClaims

end TSP
